import Mathlib

/-!
# Verification of the HEXL / intel-lattice modular-arithmetic and NTT kernels

Shallow embedding, over `ℕ`, of:

* the integer and modular-arithmetic primitives of
  `src/hexl/include/hexl/number-theory/number-theory.hpp`
  (`MultiplyFactor`, `MultiplyModLazy`, `BarrettReduce64`, `ReduceMod`, …);
* the scalar NTT kernels of `src/intel-lattice/ntt/ntt.cpp`
  (`ForwardTransformToBitReverse64`, `ReferenceForwardTransformToBitReverse`,
  `InverseTransformToBitReverse64`);
* the element-wise FMA kernel of `src/intel-lattice/eltwise/eltwise-fma.cpp`
  (`EltwiseFMAMod` dispatch and `EltwiseFMAModNative`).

Unsigned 64-bit machine integers are embedded as natural numbers; every
operation whose C++ counterpart can wrap around `2^64` is written with an
explicit reduction modulo `2^64` (`mul64`, `sub64`, …).  Operations that
cannot wrap under the preconditions established by the surrounding code
(for example `tx + Q` inside a butterfly, which stays below `4q < 2^64`)
are written with plain `ℕ` arithmetic; the range invariants proved below
justify this.

A few leaf functions (`MultiplyMod`, `AddUIntMod`, `SubUIntMod`,
`InverseMod`, the root-of-unity table precomputation) are declared in the
sources but their definitions live in files that are not part of the
repository snapshot; those are modelled from the specification document and
are marked `Modelled from the spec:` in their doc comments.
-/

namespace Hexl

/-- `2^64`, the wrap-around modulus of unsigned 64-bit arithmetic. -/
def w64 : ℕ := 2 ^ 64

/-- Unsigned 64-bit multiplication (low half): `(a * b) mod 2^64`. -/
def mul64 (a b : ℕ) : ℕ := (a * b) % w64

/-- Unsigned 64-bit subtraction with wrap-around: for `a, b < 2^64` this is
`a - b` if `b ≤ a` and `a + 2^64 - b` otherwise. -/
def sub64 (a b : ℕ) : ℕ := (a % w64 + (w64 - b % w64)) % w64

/-- `MultiplyUInt64Hi<S>(a, b)` (hexl/util/compiler.hpp, not in src/).
Modelled from the spec: "returns the high 64 bits of the 128-bit product
`a*b` after a logical right shift by `S`"; the result is a 64-bit value,
hence the final truncation. -/
def MultiplyUInt64Hi (s a b : ℕ) : ℕ := (a * b / 2 ^ s) % w64

/-- `DivideUInt128UInt64Lo(hi, lo, d)` (not in src/). Modelled from the
spec: "returns the low 64 bits of `((hi:lo) / d)`. Requires `d > 0`;
behavior undefined if the quotient exceeds 64 bits." -/
def DivideUInt128UInt64Lo (hi lo d : ℕ) : ℕ := ((hi * w64 + lo) / d) % w64

/-- The `MultiplyFactor` value object
(src/hexl/include/hexl/number-theory/number-theory.hpp, lines 19-51). -/
structure MultiplyFactor where
  m_operand : ℕ
  m_barrett_factor : ℕ
deriving DecidableEq

/-- The `MultiplyFactor(operand, bit_shift, modulus)` constructor:
`op_hi = operand >> (64 - bit_shift)`, `op_lo = (bit_shift == 64) ? 0 :
(operand << bit_shift)`, and the factor is
`DivideUInt128UInt64Lo(op_hi, op_lo, modulus)`. -/
def mkMultiplyFactor (operand bit_shift modulus : ℕ) : MultiplyFactor :=
  { m_operand := operand
    m_barrett_factor :=
      DivideUInt128UInt64Lo (operand / 2 ^ (64 - bit_shift))
        (if bit_shift = 64 then 0 else operand * 2 ^ bit_shift % w64) modulus }

/-- `MultiplyFactor::BarrettFactor()`. -/
def MultiplyFactor.BarrettFactor (f : MultiplyFactor) : ℕ := f.m_barrett_factor

/-- `MultiplyFactor::Operand()`. -/
def MultiplyFactor.Operand (f : MultiplyFactor) : ℕ := f.m_operand

/-- `MultiplyModLazy<BitShift>(x, y_operand, y_barrett_factor, modulus)`
(number-theory.hpp, lines 127-141):
`Q = MultiplyUInt64Hi<BitShift>(x, y_barrett_factor)`, result
`y_operand * x - Q * modulus` in uint64 arithmetic. -/
def MultiplyModLazy (bitShift x y_operand y_barrett_factor modulus : ℕ) : ℕ :=
  sub64 (mul64 y_operand x) (mul64 (MultiplyUInt64Hi bitShift x y_barrett_factor) modulus)

/-- The `MultiplyModLazy<BitShift>(x, y, modulus)` overload
(number-theory.hpp, lines 148-162): computes the Barrett factor of `y` on
the fly and calls the four-argument version. -/
def MultiplyModLazy' (bitShift x y modulus : ℕ) : ℕ :=
  MultiplyModLazy bitShift x y (mkMultiplyFactor y bitShift modulus).BarrettFactor modulus

/-- `BarrettReduce64(input, modulus, q_barr)` (number-theory.hpp, lines
195-201): `q = MultiplyUInt64Hi<64>(input, q_barr)`,
`q_times_input = input - q * modulus`, then one conditional subtraction. -/
def BarrettReduce64 (input modulus q_barr : ℕ) : ℕ :=
  let q := MultiplyUInt64Hi 64 input q_barr
  let q_times_input := sub64 input (mul64 q modulus)
  if modulus ≤ q_times_input then q_times_input - modulus else q_times_input

/-- `ReduceMod<InputModFactor>(x, modulus, twice_modulus, four_times_modulus)`
(number-theory.hpp, lines 210-254).  The two pointer arguments are embedded
as `Option ℕ`, dereference as `Option.getD 0`. -/
def ReduceMod (inputModFactor x modulus : ℕ)
    (twice_modulus four_times_modulus : Option ℕ) : ℕ :=
  if inputModFactor = 1 then x
  else if inputModFactor = 2 then
    if modulus ≤ x then x - modulus else x
  else if inputModFactor = 4 then
    let x1 := if twice_modulus.getD 0 ≤ x then x - twice_modulus.getD 0 else x
    if modulus ≤ x1 then x1 - modulus else x1
  else if inputModFactor = 8 then
    let x1 := if four_times_modulus.getD 0 ≤ x then x - four_times_modulus.getD 0 else x
    let x2 := if twice_modulus.getD 0 ≤ x1 then x1 - twice_modulus.getD 0 else x1
    if modulus ≤ x2 then x2 - modulus else x2
  else x

/-- `AddUIntMod(x, y, modulus)` (declared in number-theory.hpp, definition
not in src/). Modelled from the spec: "returns `(x+y) mod q`; no 64-bit
overflow because `x,y < q < 2^62`". -/
def AddUIntMod (x y modulus : ℕ) : ℕ := (x + y) % modulus

/-- `SubUIntMod(x, y, modulus)` (declared in number-theory.hpp, definition
not in src/). Modelled from the spec: "returns `(x-y) mod q`; implemented
as `(x + q - y)` then conditional subtract"; for `x, y < q` this equals
`(x + q - y) mod q`. -/
def SubUIntMod (x y modulus : ℕ) : ℕ := (x + (modulus - y)) % modulus

/-- `MultiplyMod(x, y, modulus)` (declared in number-theory.hpp, definition
not in src/). Modelled from the spec: "full 128-bit product reduced …;
result in `[0,q)`", i.e. `(x*y) mod q` for pre-reduced operands. -/
def MultiplyMod (x y modulus : ℕ) : ℕ := (x * y) % modulus

/-- `MultiplyMod(x, y, y_precon, modulus)` (declared in number-theory.hpp,
definition not in src/). Modelled from the spec: "computes
`Q = hi64(x * y_precon)` then `x*y − Q*q`, followed by one conditional
subtract". -/
def MultiplyModPrecon (x y y_precon modulus : ℕ) : ℕ :=
  let r := MultiplyModLazy 64 x y y_precon modulus
  if modulus ≤ r then r - modulus else r

/-- `InverseMod(x, modulus)` / `InverseUIntMod` (definition not in src/).
Modelled from the spec: "extended-Euclid modular inverse", i.e. the
canonical representative `y < modulus` with `x·y ≡ 1 (mod modulus)`;
embedded as a bounded search so that it evaluates by kernel reduction. -/
def InverseMod (x modulus : ℕ) : ℕ :=
  ((List.range modulus).find? (fun y => x * y % modulus == 1)).getD 0

/-- `MSB(x)` helper loop (hexl/util, not in src/), fuel-indexed so that it
is structurally recursive. -/
def msbAux : ℕ → ℕ → ℕ
  | 0, _ => 0
  | f + 1, x => if x ≤ 1 then 0 else msbAux f (x / 2) + 1

/-- `MSB(x)` (declared in hexl/util, not in src/). Modelled from the spec:
"returns `floor(log2(x))`; undefined for `x = 0`". -/
def MSB (x : ℕ) : ℕ := msbAux x x

/-- `Log2(x)` (number-theory.hpp, line 57): `return MSB(x)`. -/
def Log2 (x : ℕ) : ℕ := MSB x

/-- `ReverseBits(x, bit_width)` (definition not in src/). Modelled from the
spec: "reverses the lowest `width` bits of `x`, zeroing all higher bits." -/
def ReverseBits (x : ℕ) : ℕ → ℕ
  | 0 => 0
  | width + 1 => x % 2 * 2 ^ width + ReverseBits (x / 2) width

section BasicLemmas

lemma w64_pos : 0 < w64 := by norm_num [w64]

/-- Wrap-around cancellation: if the true difference `a - b` of two (possibly
overflowing) products is small and non-negative, uint64 arithmetic recovers
it exactly. -/
lemma sub64_mod_eq (a b : ℕ) (hle : b ≤ a) (hlt : a - b < w64) :
    sub64 (a % w64) (b % w64) = a - b := by
  unfold sub64 w64 at *
  omega

lemma mul64_eq (a b : ℕ) : mul64 a b = a * b % w64 := rfl

/-- `sub64` on the low halves of two products, phrased for direct use. -/
lemma sub64_mul64 (a₁ a₂ b₁ b₂ : ℕ) (hle : b₁ * b₂ ≤ a₁ * a₂)
    (hlt : a₁ * a₂ - b₁ * b₂ < w64) :
    sub64 (mul64 a₁ a₂) (mul64 b₁ b₂) = a₁ * a₂ - b₁ * b₂ :=
  sub64_mod_eq _ _ hle hlt

lemma sub64_eq_of_le (a b : ℕ) (hb : b ≤ a) (ha : a < w64) : sub64 a b = a - b := by
  unfold sub64 w64 at *
  omega

/-- `MaximumValue(bits)` (number-theory.hpp, lines 64-70). -/
def MaximumValue (bits : ℕ) : ℕ :=
  if bits = 64 then 2 ^ 64 - 1 else 2 ^ bits - 1

lemma maximumValue_eq (bits : ℕ) : MaximumValue bits = 2 ^ bits - 1 := by
  unfold MaximumValue
  rcases eq_or_ne bits 64 with h | h
  · rw [if_pos h, h]
  · rw [if_neg h]

/-- The Barrett factor of `operand` at shift `S` is exactly
`⌊operand·2^S / q⌋` whenever that quotient fits in 64 bits. -/
lemma barrettFactor_eq (op S q : ℕ) (hS : S ≤ 64)
    (hfit : op * 2 ^ S / q < w64) :
    (mkMultiplyFactor op S q).BarrettFactor = op * 2 ^ S / q := by
  unfold mkMultiplyFactor MultiplyFactor.BarrettFactor DivideUInt128UInt64Lo
  by_cases h64 : S = 64
  · subst h64
    rw [if_pos rfl, Nat.sub_self, pow_zero, Nat.div_one, Nat.add_zero]
    exact Nat.mod_eq_of_lt hfit
  · rw [if_neg h64]
    have hkey : op / 2 ^ (64 - S) * w64 + op * 2 ^ S % w64 = op * 2 ^ S := by
      have hsplit : (2 : ℕ) ^ 64 = 2 ^ S * 2 ^ (64 - S) := by
        rw [← pow_add]
        congr 1
        omega
      have hdiv : op * 2 ^ S / w64 = op / 2 ^ (64 - S) := by
        rw [show w64 = 2 ^ 64 from rfl, hsplit, mul_comm op (2 ^ S)]
        exact Nat.mul_div_mul_left op (2 ^ (64 - S)) (by positivity)
      calc op / 2 ^ (64 - S) * w64 + op * 2 ^ S % w64
          = w64 * (op * 2 ^ S / w64) + op * 2 ^ S % w64 := by rw [hdiv]; ring
        _ = op * 2 ^ S := Nat.div_add_mod _ _
    rw [hkey]
    exact Nat.mod_eq_of_lt hfit

/-- Core correctness of the lazy Barrett multiplication: under the Harvey
preconditions the uint64 computation returns the exact integer
`x·y − ⌊x·yp/2^S⌋·q`, which lies in `[0, 2q)`. -/
lemma multiplyModLazy_spec (S x y yp q : ℕ) (hS : S ≤ 64)
    (hy : y < q) (hx : x < 2 ^ S) (hq : q < 2 ^ S) (h2q : 2 * q ≤ w64)
    (hyp : yp = y * 2 ^ S / q) :
    MultiplyModLazy S x y yp q = x * y - x * yp / 2 ^ S * q ∧
    x * yp / 2 ^ S * q ≤ x * y ∧
    x * y - x * yp / 2 ^ S * q < 2 * q := by
  have hq0 : 0 < q := by omega
  have hP : 0 < (2 : ℕ) ^ S := by positivity
  set Q := x * yp / 2 ^ S with hQ
  -- upper bound on Q·q
  have hQle : Q * 2 ^ S ≤ x * yp := Nat.div_mul_le_self _ _
  have hypq : yp * q ≤ y * 2 ^ S := by
    rw [hyp]
    exact Nat.div_mul_le_self _ _
  have h1 : Q * q ≤ x * y := by
    have step : Q * q * 2 ^ S ≤ x * y * 2 ^ S := by
      calc Q * q * 2 ^ S = Q * 2 ^ S * q := by ring
        _ ≤ x * yp * q := Nat.mul_le_mul_right _ hQle
        _ = x * (yp * q) := by ring
        _ ≤ x * (y * 2 ^ S) := Nat.mul_le_mul_left _ hypq
        _ = x * y * 2 ^ S := by ring
    exact Nat.le_of_mul_le_mul_right step hP
  -- lower bound: x·y < Q·q + 2·q
  have hub : x * yp < Q * 2 ^ S + 2 ^ S := Nat.lt_div_mul_add hP
  have hyub : y * 2 ^ S < yp * q + q := by
    rw [hyp]
    exact Nat.lt_div_mul_add hq0
  have h2 : x * y < Q * q + 2 * q := by
    have m1 : x * (y * 2 ^ S) + x ≤ x * (yp * q + q) := by
      calc x * (y * 2 ^ S) + x = x * (y * 2 ^ S + 1) := by ring
        _ ≤ x * (yp * q + q) := Nat.mul_le_mul_left x hyub
    have m2 : x * yp * q + q ≤ (Q * 2 ^ S + 2 ^ S) * q := by
      calc x * yp * q + q = (x * yp + 1) * q := by ring
        _ ≤ (Q * 2 ^ S + 2 ^ S) * q := Nat.mul_le_mul_right q hub
    have m3 : (x + 1) * q ≤ 2 ^ S * q := Nat.mul_le_mul_right q hx
    have key : x * y * 2 ^ S < (Q * q + 2 * q) * 2 ^ S := by nlinarith [m1, m2, m3]
    exact lt_of_mul_lt_mul_right key (Nat.zero_le _)
  -- the uint64 computation is exact
  have hyplt : yp < 2 ^ S := by
    rw [hyp]
    exact Nat.div_lt_of_lt_mul (by nlinarith [hy, hP])
  have hQlt : Q < w64 := by
    have hq2 : Q < 2 ^ S := Nat.div_lt_of_lt_mul (by nlinarith [hx, hyplt])
    calc Q < 2 ^ S := hq2
      _ ≤ 2 ^ 64 := Nat.pow_le_pow_right (by norm_num) hS
      _ = w64 := rfl
  have hhi : MultiplyUInt64Hi S x yp = Q := by
    unfold MultiplyUInt64Hi
    exact Nat.mod_eq_of_lt hQlt
  have hmain : MultiplyModLazy S x y yp q = x * y - Q * q := by
    unfold MultiplyModLazy
    rw [hhi]
    rw [sub64_mul64 y x Q q (by rw [mul_comm y x]; exact h1) (by rw [mul_comm y x]; omega)]
    rw [mul_comm y x]
  exact ⟨hmain, h1, by omega⟩

/-- If `q·k ≤ x < q·(k+1)`, then `x mod q` is obtained by subtracting the
multiple `q·k`. -/
lemma mod_eq_sub_of_range (x q k : ℕ) (hle : q * k ≤ x) (hlt : x < q * k + q) :
    x % q = x - q * k := by
  have h1 : (x - q * k) % q = x % q := Nat.sub_mul_mod hle
  have h2 : x - q * k < q := by omega
  rw [← h1, Nat.mod_eq_of_lt h2]

/-- Convenient packaging of `multiplyModLazy_spec`: congruence and range. -/
lemma multiplyModLazy_correct (S x y yp q : ℕ) (hS : S ≤ 64)
    (hy : y < q) (hx : x < 2 ^ S) (hq : q < 2 ^ S) (h2q : 2 * q ≤ w64)
    (hyp : yp = y * 2 ^ S / q) :
    MultiplyModLazy S x y yp q % q = x * y % q ∧
    MultiplyModLazy S x y yp q < 2 * q := by
  obtain ⟨he, hle, hlt⟩ := multiplyModLazy_spec S x y yp q hS hy hx hq h2q hyp
  constructor
  · rw [he, mul_comm (x * yp / 2 ^ S) q]
    exact Nat.sub_mul_mod (by rw [mul_comm q (x * yp / 2 ^ S)]; exact hle)
  · omega

/-- The in-line Barrett factor of the three-argument `MultiplyModLazy`
overload is exact whenever `y < q`. -/
lemma barrettFactor_of_lt (y S q : ℕ) (hS : S ≤ 64) (hy : y < q) :
    (mkMultiplyFactor y S q).BarrettFactor = y * 2 ^ S / q := by
  have hq0 : 0 < q := by omega
  apply barrettFactor_eq y S q hS
  have h1 : y * 2 ^ S / q < 2 ^ S :=
    Nat.div_lt_of_lt_mul (by exact mul_lt_mul_of_pos_right hy (by positivity))
  have h2 : (2 : ℕ) ^ S ≤ 2 ^ 64 := Nat.pow_le_pow_right (by norm_num) hS
  calc y * 2 ^ S / q < 2 ^ S := h1
    _ ≤ 2 ^ 64 := h2
    _ = w64 := rfl

/-- Correctness of the three-argument `MultiplyModLazy` overload. -/
lemma multiplyModLazy'_correct (S x y q : ℕ) (hS : S ≤ 64)
    (hy : y < q) (hx : x < 2 ^ S) (hq : q < 2 ^ S) (h2q : 2 * q ≤ w64) :
    MultiplyModLazy' S x y q % q = x * y % q ∧
    MultiplyModLazy' S x y q < 2 * q := by
  unfold MultiplyModLazy'
  rw [barrettFactor_of_lt y S q hS hy]
  exact multiplyModLazy_correct S x y _ q hS hy hx hq h2q rfl

end BasicLemmas

section ClaimC4

/-- C4, counterexample to the claim as stated: with `S = 64` the claim
admits any `q ≤ MaxValue(64) = 2^64 - 1`, but for
`q = 30·2^59 ≥ 2^63`, `x = 27·2^59`, `y = 13·2^59 < q` the true value
`x·y − ⌊x·y_precon/2^64⌋·q` exceeds `2^64`, the uint64 subtraction wraps,
and the returned value is no longer congruent to `x·y (mod q)`. -/
theorem multiplyModLazy_C4_counterexample :
    7493989779944505344 < 17293822569102704640 ∧
    17293822569102704640 ≤ MaximumValue 64 ∧
    15564440312192434176 ≤ MaximumValue 64 ∧
    ¬(MultiplyModLazy 64 15564440312192434176 7493989779944505344
        (7493989779944505344 * 2 ^ 64 / 17293822569102704640)
        17293822569102704640 % 17293822569102704640 =
      15564440312192434176 * 7493989779944505344 % 17293822569102704640) := by
  refine ⟨by norm_num, ?_, ?_, by decide⟩ <;> rw [maximumValue_eq] <;> norm_num

/-- C4 (amended with `q < 2^63`): for `S ∈ {52, 64}`, `y < q`,
`q ≤ MaxValue(S)`, `x ≤ MaxValue(S)`, `q < 2^63`, and
`y_precon = ⌊(y << S)/q⌋`, `MultiplyModLazy<S>(x, y, y_precon, q)` returns a
value congruent to `x·y (mod q)` lying in `[0, 2q)`. -/
theorem multiplyModLazy_C4_amended (S x y y_precon q : ℕ)
    (hS : S = 52 ∨ S = 64) (hy : y < q) (hq : q ≤ MaximumValue S)
    (hx : x ≤ MaximumValue S) (hq63 : q < 2 ^ 63)
    (hyp : y_precon = y * 2 ^ S / q) :
    MultiplyModLazy S x y y_precon q % q = x * y % q ∧
    MultiplyModLazy S x y y_precon q < 2 * q := by
  have hS64 : S ≤ 64 := by rcases hS with h | h <;> omega
  rw [maximumValue_eq] at hq hx
  have hP : (0 : ℕ) < 2 ^ S := by positivity
  have h64 : (2 : ℕ) ^ 64 = 2 * 2 ^ 63 := by norm_num
  exact multiplyModLazy_correct S x y y_precon q hS64 hy (by omega) (by omega)
    (by unfold w64; omega) hyp

/-- Witness for `multiplyModLazy_C4_amended` at `S = 64`, `x = 5`, `y = 3`,
`q = 7`. -/
theorem multiplyModLazy_C4_witness :
    MultiplyModLazy 64 5 3 (3 * 2 ^ 64 / 7) 7 % 7 = 5 * 3 % 7 ∧
    MultiplyModLazy 64 5 3 (3 * 2 ^ 64 / 7) 7 < 2 * 7 :=
  multiplyModLazy_C4_amended 64 5 3 (3 * 2 ^ 64 / 7) 7 (Or.inr rfl)
    (by norm_num) (by rw [maximumValue_eq]; norm_num)
    (by rw [maximumValue_eq]; norm_num) (by norm_num) rfl

end ClaimC4

section ClaimC6

/-- C6: for every 64-bit `x` and `0 < q < 2^62` with
`q_barr = ⌊2^64/q⌋`, `BarrettReduce64(x, q, q_barr)` returns exactly
`x mod q`, and the pre-subtraction estimate `x - hi64(x·q_barr)·q` lies in
`[0, 2q)`, so a single conditional subtraction suffices. -/
theorem barrettReduce64_C6 (x q q_barr : ℕ) (hx : x < w64) (hq0 : 0 < q)
    (hq : q < 2 ^ 62) (hb : q_barr = w64 / q) :
    BarrettReduce64 x q q_barr = x % q ∧
    sub64 x (mul64 (MultiplyUInt64Hi 64 x q_barr) q) < 2 * q := by
  have hw : 0 < w64 := w64_pos
  have hble : q_barr ≤ w64 := by rw [hb]; exact Nat.div_le_self _ _
  set Qr := x * q_barr / 2 ^ 64 with hQr
  have hQlt : Qr < w64 := by
    apply Nat.div_lt_of_lt_mul
    calc x * q_barr ≤ x * w64 := Nat.mul_le_mul_left x hble
      _ < w64 * w64 := by exact mul_lt_mul_of_pos_right hx hw
      _ = 2 ^ 64 * w64 := rfl
  have hhi : MultiplyUInt64Hi 64 x q_barr = Qr := Nat.mod_eq_of_lt hQlt
  have hbq : q_barr * q ≤ w64 := by rw [hb]; exact Nat.div_mul_le_self _ _
  have hQq : Qr * q ≤ x := by
    have step : Qr * q * 2 ^ 64 ≤ x * 2 ^ 64 := by
      calc Qr * q * 2 ^ 64 = Qr * 2 ^ 64 * q := by ring
        _ ≤ x * q_barr * q := Nat.mul_le_mul_right q (Nat.div_mul_le_self _ _)
        _ = x * (q_barr * q) := by ring
        _ ≤ x * w64 := Nat.mul_le_mul_left x hbq
        _ = x * 2 ^ 64 := rfl
    exact Nat.le_of_mul_le_mul_right step (by positivity)
  have hmul : mul64 Qr q = Qr * q := Nat.mod_eq_of_lt (by
    have : Qr * q ≤ x := hQq
    omega)
  have hsub : sub64 x (mul64 Qr q) = x - Qr * q := by
    rw [hmul]
    exact sub64_eq_of_le x (Qr * q) hQq hx
  -- the estimate is below 2q
  have hub : x * q_barr < Qr * 2 ^ 64 + 2 ^ 64 := Nat.lt_div_mul_add (by positivity)
  have hbub : w64 < q_barr * q + q := by
    rw [hb]
    exact Nat.lt_div_mul_add hq0
  have hlt2 : x - Qr * q < 2 * q := by
    have m1 : x * w64 + x ≤ x * (q_barr * q) + x * q := by
      have h' : w64 + 1 ≤ q_barr * q + q := hbub
      calc x * w64 + x = x * (w64 + 1) := by ring
        _ ≤ x * (q_barr * q + q) := Nat.mul_le_mul_left x h'
        _ = x * (q_barr * q) + x * q := by ring
    have m2 : x * q_barr * q + q ≤ (Qr * 2 ^ 64 + 2 ^ 64) * q := by
      calc x * q_barr * q + q = (x * q_barr + 1) * q := by ring
        _ ≤ (Qr * 2 ^ 64 + 2 ^ 64) * q := Nat.mul_le_mul_right q hub
    have m3 : (x + 1) * q ≤ w64 * q := Nat.mul_le_mul_right q hx
    have key : x * w64 < (Qr * q + 2 * q) * w64 := by
      have hww : w64 = 2 ^ 64 := rfl
      nlinarith [m1, m2, m3]
    have := lt_of_mul_lt_mul_right key (Nat.zero_le _)
    omega
  have hmod : (x - Qr * q) % q = x % q := by
    rw [show Qr * q = q * Qr from mul_comm _ _]
    exact Nat.sub_mul_mod (by rw [mul_comm q Qr]; exact hQq)
  constructor
  · simp only [BarrettReduce64]
    rw [hhi, hsub]
    rcases le_or_lt q (x - Qr * q) with hcase | hcase
    · rw [if_pos hcase, ← hmod, Nat.mod_eq_sub_mod hcase,
        Nat.mod_eq_of_lt (by omega)]
    · rw [if_neg (by omega), ← hmod, Nat.mod_eq_of_lt hcase]
  · rw [hhi, hsub]
    exact hlt2

/-- Witness for `barrettReduce64_C6` at `x = 123456789012345`, `q = 97`. -/
theorem barrettReduce64_C6_witness :
    BarrettReduce64 123456789012345 97 (w64 / 97) = 123456789012345 % 97 ∧
    sub64 123456789012345
      (mul64 (MultiplyUInt64Hi 64 123456789012345 (w64 / 97)) 97) < 2 * 97 :=
  barrettReduce64_C6 123456789012345 97 (w64 / 97)
    (by norm_num [w64]) (by norm_num) (by norm_num) rfl

end ClaimC6

section ClaimC7

/-- C7: for `K ∈ {1,2,4,8}` and `x < K·q` (with the twice/four-times
pointers supplied as `2q` and `4q`), `ReduceMod<K>` returns exactly
`x mod q`. -/
theorem reduceMod_C7 (K x q : ℕ) (hK : K = 1 ∨ K = 2 ∨ K = 4 ∨ K = 8)
    (hx : x < K * q) :
    ReduceMod K x q (some (2 * q)) (some (4 * q)) = x % q := by
  rcases hK with h | h | h | h <;> subst h <;>
    simp only [ReduceMod, Option.getD_some] <;> norm_num
  · exact (Nat.mod_eq_of_lt (by omega)).symm
  · split_ifs with h1
    · rw [mod_eq_sub_of_range x q 1 (by omega) (by omega)]; omega
    · exact (Nat.mod_eq_of_lt (by omega)).symm
  · split_ifs with h1 h2 h3
    · rw [mod_eq_sub_of_range x q 3 (by omega) (by omega)]; omega
    · rw [mod_eq_sub_of_range x q 2 (by omega) (by omega)]; omega
    · rw [mod_eq_sub_of_range x q 1 (by omega) (by omega)]; omega
    · exact (Nat.mod_eq_of_lt (by omega)).symm
  · split_ifs with h1 h2 h3 h4 h5 h6 h7
    · rw [mod_eq_sub_of_range x q 7 (by omega) (by omega)]; omega
    · rw [mod_eq_sub_of_range x q 6 (by omega) (by omega)]; omega
    · rw [mod_eq_sub_of_range x q 5 (by omega) (by omega)]; omega
    · rw [mod_eq_sub_of_range x q 4 (by omega) (by omega)]; omega
    · rw [mod_eq_sub_of_range x q 3 (by omega) (by omega)]; omega
    · rw [mod_eq_sub_of_range x q 2 (by omega) (by omega)]; omega
    · rw [mod_eq_sub_of_range x q 1 (by omega) (by omega)]; omega
    · exact (Nat.mod_eq_of_lt (by omega)).symm

/-- Witness for `reduceMod_C7` at `K = 8`, `x = 30`, `q = 4`. -/
theorem reduceMod_C7_witness :
    ReduceMod 8 30 4 (some (2 * 4)) (some (4 * 4)) = 30 % 4 :=
  reduceMod_C7 8 30 4 (by norm_num) (by norm_num)

end ClaimC7

section ClaimC8

/-- C8, counterexample to the claim as stated: the claim allows
`operand = q`, but for `S = 64` the quotient `⌊q·2^64/q⌋ = 2^64` does not
fit in 64 bits, and the stored factor is its low half `0`. -/
theorem multiplyFactor_C8_counterexample :
    (5 : ℕ) ≤ 5 ∧
    ¬((mkMultiplyFactor 5 64 5).BarrettFactor = 5 * 2 ^ 64 / 5) :=
  ⟨le_refl 5, by decide⟩

/-- C8 (amended to exclude `operand = q` when `S = 64`, and to require
`0 < q < 2^64`): the constructor stores exactly
`⌊(operand · 2^S)/q⌋`, and `Operand()` returns the operand unchanged. -/
theorem multiplyFactor_C8_amended (operand bit_shift q : ℕ)
    (hS : bit_shift = 32 ∨ bit_shift = 52 ∨ bit_shift = 64)
    (hq0 : 0 < q) (hq64 : q < w64) (hop : operand ≤ q)
    (hop64 : bit_shift = 64 → operand < q) :
    (mkMultiplyFactor operand bit_shift q).BarrettFactor =
      operand * 2 ^ bit_shift / q ∧
    (mkMultiplyFactor operand bit_shift q).Operand = operand := by
  refine ⟨?_, rfl⟩
  apply barrettFactor_eq
  · rcases hS with h | h | h <;> omega
  · rcases hS with h | h | h
    · subst h
      calc operand * 2 ^ 32 / q ≤ q * 2 ^ 32 / q :=
            Nat.div_le_div_right (Nat.mul_le_mul_right _ hop)
        _ = 2 ^ 32 := by rw [mul_comm]; exact Nat.mul_div_cancel _ hq0
        _ < w64 := by norm_num [w64]
    · subst h
      calc operand * 2 ^ 52 / q ≤ q * 2 ^ 52 / q :=
            Nat.div_le_div_right (Nat.mul_le_mul_right _ hop)
        _ = 2 ^ 52 := by rw [mul_comm]; exact Nat.mul_div_cancel _ hq0
        _ < w64 := by norm_num [w64]
    · have hlt := hop64 h
      subst h
      apply Nat.div_lt_of_lt_mul
      calc operand * 2 ^ 64 < q * 2 ^ 64 :=
            mul_lt_mul_of_pos_right hlt (by positivity)
        _ = q * w64 := rfl

/-- Witness for `multiplyFactor_C8_amended` at `operand = 3`, `S = 64`,
`q = 7`. -/
theorem multiplyFactor_C8_witness :
    (mkMultiplyFactor 3 64 7).BarrettFactor = 3 * 2 ^ 64 / 7 ∧
    (mkMultiplyFactor 3 64 7).Operand = 3 :=
  multiplyFactor_C8_amended 3 64 7 (by norm_num) (by norm_num)
    (by norm_num [w64]) (by norm_num) (fun _ => by norm_num)

end ClaimC8

/-! ## Element-wise FMA (src/intel-lattice/eltwise/eltwise-fma.cpp) -/

/-- The `arg3 != nullptr` loop of `EltwiseFMAModNative` (eltwise-fma.cpp,
lines 62-68).  Each iteration performs the two stores of the source verbatim:
`*out = MultiplyMod(*arg1, arg2, mf.BarrettFactor(), modulus)` followed by
`*out++ = AddUIntMod(*arg1++, *arg3++, modulus)` — the second store
overwrites the first. -/
def fmaLoopArg3 (arg1 arg3 : List ℕ) (arg2 b_barr modulus : ℕ)
    (out : List ℕ) (i : ℕ) : ℕ → List ℕ
  | 0 => out
  | c + 1 =>
    let out1 := out.set i (MultiplyModPrecon (arg1.getD i 0) arg2 b_barr modulus)
    let out2 := out1.set i (AddUIntMod (arg1.getD i 0) (arg3.getD i 0) modulus)
    fmaLoopArg3 arg1 arg3 arg2 b_barr modulus out2 (i + 1) c

/-- The `arg3 == nullptr` loop of `EltwiseFMAModNative` (eltwise-fma.cpp,
lines 71-73). -/
def fmaLoopNoArg3 (arg1 : List ℕ) (arg2 b_barr modulus : ℕ)
    (out : List ℕ) (i : ℕ) : ℕ → List ℕ
  | 0 => out
  | c + 1 =>
    fmaLoopNoArg3 arg1 arg2 b_barr modulus
      (out.set i (MultiplyModPrecon (arg1.getD i 0) arg2 b_barr modulus)) (i + 1) c

/-- `EltwiseFMAModNative(arg1, arg2, arg3, out, n, modulus)`
(eltwise-fma.cpp, lines 58-74).  The nullable `arg3` pointer is an
`Option`; the output buffer is a list modified by indexed stores. -/
def EltwiseFMAModNative (arg1 : List ℕ) (arg2 : ℕ) (arg3 : Option (List ℕ))
    (out : List ℕ) (n modulus : ℕ) : List ℕ :=
  let mf := mkMultiplyFactor arg2 64 modulus
  match arg3 with
  | some a3 => fmaLoopArg3 arg1 a3 arg2 mf.BarrettFactor modulus out 0 n
  | none => fmaLoopNoArg3 arg1 arg2 mf.BarrettFactor modulus out 0 n

/-- Which kernel a call of `EltwiseFMAMod` (eltwise-fma.cpp, lines 32-56)
executes, as a function of the two compile-time guards
(`LATTICE_HAS_AVX512IFMA`, `LATTICE_HAS_AVX512DQ`), the two runtime CPU
flags, and the modulus.  `noKernel` is the fall-through in which the `return`
after the `has_avx512_dq` guard is reached with no kernel invoked. -/
inductive FMAKernel where
  | avx512ifma52 : FMAKernel
  | avx512dq64 : FMAKernel
  | scalarNative : FMAKernel
  | noKernel : FMAKernel
deriving DecidableEq

/-- Kernel selection of `EltwiseFMAMod`, mirroring the preprocessor and
runtime structure of eltwise-fma.cpp lines 36-55: the IFMA block returns
from inside its capability guard, while the DQ block's `return` sits
*outside* the `if (has_avx512_dq)` guard. -/
def EltwiseFMAModSelectedKernel (ifma_compiled dq_compiled has_avx512_ifma
    has_avx512_dq : Bool) (modulus : ℕ) : FMAKernel :=
  if ifma_compiled ∧ has_avx512_ifma ∧ modulus < 2 ^ 52 then .avx512ifma52
  else if dq_compiled then
    (if has_avx512_dq then .avx512dq64 else .noKernel)
  else .scalarNative

/-- `EltwiseFMAMod` (eltwise-fma.cpp, lines 32-56), parameterized over the
two AVX512 kernel bodies (their sources, eltwise-fma-avx512.hpp, are not in
src/), with the same control flow as `EltwiseFMAModSelectedKernel`. -/
def EltwiseFMAMod
    (kIFMA kDQ : List ℕ → ℕ → Option (List ℕ) → List ℕ → ℕ → ℕ → ℕ → List ℕ)
    (ifma_compiled dq_compiled has_avx512_ifma has_avx512_dq : Bool)
    (arg1 : List ℕ) (arg2 : ℕ) (arg3 : Option (List ℕ)) (out : List ℕ)
    (n modulus : ℕ) : List ℕ :=
  if ifma_compiled ∧ has_avx512_ifma ∧ modulus < 2 ^ 52 then
    kIFMA arg1 arg2 arg3 out (mkMultiplyFactor arg2 52 modulus).BarrettFactor n modulus
  else if dq_compiled then
    (if has_avx512_dq then
      kDQ arg1 arg2 arg3 out (mkMultiplyFactor arg2 64 modulus).BarrettFactor n modulus
    else out)
  else EltwiseFMAModNative arg1 arg2 arg3 out n modulus

section FMALemmas

lemma getD_set_self (l : List ℕ) (i v : ℕ) (h : i < l.length) :
    (l.set i v).getD i 0 = v := by
  simp [List.getD, List.getElem?_set_self', h]

lemma getD_set_ne (l : List ℕ) (i j v : ℕ) (h : i ≠ j) :
    (l.set i v).getD j 0 = l.getD j 0 := by
  simp [List.getD, List.getElem?_set_ne h]

/-- Pointwise description of the `arg3 == nullptr` loop. -/
lemma fmaLoopNoArg3_getD (arg1 : List ℕ) (arg2 bb q : ℕ) :
    ∀ (c i : ℕ) (out : List ℕ), i + c ≤ out.length → ∀ j,
      (fmaLoopNoArg3 arg1 arg2 bb q out i c).getD j 0 =
        if i ≤ j ∧ j < i + c then
          MultiplyModPrecon (arg1.getD j 0) arg2 bb q
        else out.getD j 0 := by
  intro c
  induction c with
  | zero =>
    intro i out _ j
    simp only [fmaLoopNoArg3]
    rw [if_neg (by omega)]
  | succ c ih =>
    intro i out hlen j
    simp only [fmaLoopNoArg3]
    rw [ih (i + 1) _ (by simpa using by omega)]
    rcases Nat.lt_trichotomy j i with hj | hj | hj
    · rw [if_neg (by omega), if_neg (by omega), getD_set_ne _ _ _ _ (by omega)]
    · subst hj
      rw [if_neg (by omega), if_pos (by omega), getD_set_self _ _ _ (by omega)]
    · by_cases hin : j < i + (c + 1)
      · rw [if_pos (by omega), if_pos (by omega)]
      · rw [if_neg (by omega), if_neg (by omega), getD_set_ne _ _ _ _ (by omega)]

/-- Pointwise description of the `arg3 != nullptr` loop: the surviving store
is the `AddUIntMod` one. -/
lemma fmaLoopArg3_getD (arg1 arg3 : List ℕ) (arg2 bb q : ℕ) :
    ∀ (c i : ℕ) (out : List ℕ), i + c ≤ out.length → ∀ j,
      (fmaLoopArg3 arg1 arg3 arg2 bb q out i c).getD j 0 =
        if i ≤ j ∧ j < i + c then
          AddUIntMod (arg1.getD j 0) (arg3.getD j 0) q
        else out.getD j 0 := by
  intro c
  induction c with
  | zero =>
    intro i out _ j
    simp only [fmaLoopArg3]
    rw [if_neg (by omega)]
  | succ c ih =>
    intro i out hlen j
    simp only [fmaLoopArg3]
    rw [ih (i + 1) _ (by simpa using by omega)]
    rcases Nat.lt_trichotomy j i with hj | hj | hj
    · rw [if_neg (by omega), if_neg (by omega), getD_set_ne _ _ _ _ (by omega),
        getD_set_ne _ _ _ _ (by omega)]
    · subst hj
      rw [if_neg (by omega), if_pos (by omega),
        getD_set_self _ _ _ (by simpa using by omega)]
    · by_cases hin : j < i + (c + 1)
      · rw [if_pos (by omega), if_pos (by omega)]
      · rw [if_neg (by omega), if_neg (by omega), getD_set_ne _ _ _ _ (by omega),
        getD_set_ne _ _ _ _ (by omega)]

/-- The spec formula for the preconditioned `MultiplyMod` is correct for
`q < 2^63`. -/
lemma multiplyModPrecon_correct (x y q : ℕ) (hx : x < w64) (hy : y < q)
    (hq : q < 2 ^ 63) :
    MultiplyModPrecon x y (y * 2 ^ 64 / q) q = x * y % q := by
  have h64 : (2 : ℕ) ^ 64 = 2 * 2 ^ 63 := by norm_num
  obtain ⟨hm, hlt⟩ := multiplyModLazy_correct 64 x y (y * 2 ^ 64 / q) q
    (le_refl 64) hy (by unfold w64 at hx; exact hx) (by omega)
    (by unfold w64; omega) rfl
  unfold MultiplyModPrecon
  rcases le_or_lt q (MultiplyModLazy 64 x y (y * 2 ^ 64 / q) q) with hc | hc
  · rw [if_pos hc, ← hm, mod_eq_sub_of_range _ q 1 (by omega) (by omega)]
    omega
  · rw [if_neg (by omega), ← hm, Nat.mod_eq_of_lt hc]

end FMALemmas

section ClaimC2

/-- C2 is a code bug: in the `arg3` branch of `EltwiseFMAModNative` the
statement `*out = MultiplyMod(...)` is immediately overwritten by
`*out++ = AddUIntMod(*arg1++, *arg3++, modulus)`, so the kernel stores
`(arg1[i] + arg3[i]) mod q` instead of the documented
`(arg1[i]*arg2 + arg3[i]) mod q`.  At `arg1 = [1]`, `arg2 = 2`,
`arg3 = [3]`, `q = 97` the code produces `4` where the contract demands
`5`. -/
theorem eltwiseFMAModNative_C2_bug :
    EltwiseFMAModNative [1] 2 (some [3]) [0] 1 97 = [4] ∧
    (1 * 2 + 3) % 97 = 5 :=
  ⟨by decide, by decide⟩

end ClaimC2

section ClaimC9

/-- C9, counterexample to the claim as stated: the claim requires only
`q ≠ 0`, but for `q = 30·2^59 ≥ 2^63` the lazy product inside
`MultiplyMod(x, arg2, precon, q)` wraps around `2^64` and the stored value
is not `(arg1[0]·arg2) mod q` (see `multiplyModLazy_C4_counterexample` for
the underlying arithmetic). -/
theorem eltwiseFMAModNative_C9_counterexample :
    (17293822569102704640 : ℕ) ≠ 0 ∧
    7493989779944505344 < 17293822569102704640 ∧
    15564440312192434176 < 17293822569102704640 ∧
    EltwiseFMAModNative [15564440312192434176] 7493989779944505344 none [0] 1
        17293822569102704640 ≠
      [15564440312192434176 * 7493989779944505344 % 17293822569102704640] := by
  refine ⟨by norm_num, by norm_num, by norm_num, by decide⟩

/-- C9 (amended with `q < 2^63`): with `arg3` absent, `q ≠ 0`, `q < 2^63`,
`arg2 < q` and all `arg1[i] < q`, `EltwiseFMAModNative` stores
`out[i] = (arg1[i]·arg2) mod q` for every `i < n`. -/
theorem eltwiseFMAModNative_C9_amended (arg1 out : List ℕ) (arg2 q n : ℕ)
    (hq0 : q ≠ 0) (hq : q < 2 ^ 63) (ha2 : arg2 < q)
    (ha1 : ∀ v ∈ arg1, v < q) (hn1 : n ≤ arg1.length) (hn2 : n ≤ out.length) :
    ∀ i < n, (EltwiseFMAModNative arg1 arg2 none out n q).getD i 0 =
      arg1.getD i 0 * arg2 % q := by
  intro i hi
  simp only [EltwiseFMAModNative]
  rw [barrettFactor_of_lt arg2 64 q (le_refl 64) ha2]
  rw [fmaLoopNoArg3_getD arg1 arg2 _ q n 0 out (by omega) i, if_pos (by omega)]
  have hmem : arg1.getD i 0 ∈ arg1 := by
    rw [List.getD_eq_getElem?_getD, List.getElem?_eq_getElem (by omega)]
    exact List.getElem_mem _
  have hlt : arg1.getD i 0 < q := ha1 _ hmem
  exact multiplyModPrecon_correct (arg1.getD i 0) arg2 q
    (by unfold w64; omega) ha2 hq

/-- Witness for `eltwiseFMAModNative_C9_amended` at `arg1 = [5, 6]`,
`arg2 = 3`, `q = 11`. -/
theorem eltwiseFMAModNative_C9_witness :
    (EltwiseFMAModNative [5, 6] 3 none [0, 0] 2 11).getD 1 0 =
      [5, 6].getD 1 0 * 3 % 11 :=
  eltwiseFMAModNative_C9_amended [5, 6] [0, 0] 3 11 2 (by norm_num)
    (by norm_num) (by norm_num) (by decide) (by norm_num) (by norm_num) 1
    (by norm_num)

end ClaimC9

section ClaimC10

/-- C10: in a build with `LATTICE_HAS_AVX512DQ` defined whose CPU does not
report `avx512dq` (and in which the IFMA path is not entered — no CPU
reports `avx512ifma` without `avx512dq`), `EltwiseFMAMod` returns with the
`out` buffer unchanged, whatever the AVX512 kernel bodies are; moreover,
with the DQ path compiled in, the selected kernel is never the scalar
fallback. -/
theorem eltwiseFMAMod_C10
    (kIFMA kDQ : List ℕ → ℕ → Option (List ℕ) → List ℕ → ℕ → ℕ → ℕ → List ℕ)
    (ifma_compiled has_avx512_ifma : Bool)
    (arg1 : List ℕ) (arg2 : ℕ) (arg3 : Option (List ℕ)) (out : List ℕ)
    (n modulus : ℕ)
    (hifma : ¬(ifma_compiled = true ∧ has_avx512_ifma = true ∧
      modulus < 2 ^ 52)) :
    EltwiseFMAMod kIFMA kDQ ifma_compiled true has_avx512_ifma false
        arg1 arg2 arg3 out n modulus = out ∧
    EltwiseFMAModSelectedKernel ifma_compiled true has_avx512_ifma false
        modulus ≠ FMAKernel.scalarNative := by
  constructor
  · unfold EltwiseFMAMod
    rw [if_neg (by simpa using hifma), if_pos rfl, if_neg (by simp)]
  · unfold EltwiseFMAModSelectedKernel
    rw [if_neg (by simpa using hifma), if_pos rfl, if_neg (by simp)]
    simp

/-- Witness for `eltwiseFMAMod_C10`: a DQ-compiled build on a CPU with
neither `avx512ifma` nor `avx512dq` leaves `out = [5, 6]` untouched. -/
theorem eltwiseFMAMod_C10_witness :
    EltwiseFMAMod (fun _ _ _ _ _ _ _ => []) (fun _ _ _ _ _ _ _ => [])
        false true false false [1] 2 none [5, 6] 1 7 = [5, 6] ∧
    EltwiseFMAModSelectedKernel false true false false 7 ≠
      FMAKernel.scalarNative :=
  eltwiseFMAMod_C10 (fun _ _ _ _ _ _ _ => []) (fun _ _ _ _ _ _ _ => [])
    false false [1] 2 none [5, 6] 1 7 (by simp)

end ClaimC10

/-! ## NTT kernels (src/intel-lattice/ntt/ntt.cpp)

The in-place coefficient buffer is embedded as a `List ℕ`: the store
`elements[j] = v` becomes `st.set j v` and the load `elements[j]` becomes
`st.getD j 0`.  The three nested loops of each transform are embedded as
structural recursions on their trip counts; a generic pair-butterfly
`pairBF` captures the common "read `X = *X`, `Y = *Y`, write both back"
shape of every butterfly in the file. -/

/-- One butterfly: read positions `j` and `j + t`, write
`fX ridx X Y` to `j` and `fY ridx X Y` to `j + t` (in source order: the
`*X++` store happens before the `*Y++` store; both operands are read
before either store). -/
def pairBF (fX fY : ℕ → ℕ → ℕ → ℕ) (ridx t j : ℕ) (st : List ℕ) : List ℕ :=
  (st.set j (fX ridx (st.getD j 0) (st.getD (j + t) 0))).set
    (j + t) (fY ridx (st.getD j 0) (st.getD (j + t) 0))

/-- The innermost `for (j = j1; j < j2; j++)` loop: apply `bf` at positions
`j, j+1, …`, `count` times (last argument). -/
def ctInner (bf : ℕ → List ℕ → List ℕ) (j : ℕ) (st : List ℕ) :
    ℕ → List ℕ
  | 0 => st
  | c + 1 => ctInner bf (j + 1) (bf j st) c

/-- The block loop `for (i = 0; i < m; i++)`: block `i` starts at
`j1 = i·2t` and uses root index `r0 + i` (`r0 = m` for the forward
transforms, `r0 = root_index` for the inverse). -/
def nttBlocks (fX fY : ℕ → ℕ → ℕ → ℕ) (r0 t : ℕ) (i : ℕ) (st : List ℕ) :
    ℕ → List ℕ
  | 0 => st
  | c + 1 => nttBlocks fX fY r0 t (i + 1)
      (ctInner (pairBF fX fY (r0 + i) t) (i * (2 * t)) st t) c

/-- The forward level loop `for (m = 1; m < n; m <<= 1)`: `m` doubles and
`t` halves each level; the trip count is the last argument. -/
def fwdLevels (fX fY : ℕ → ℕ → ℕ → ℕ) (m t : ℕ) (st : List ℕ) :
    ℕ → List ℕ
  | 0 => st
  | r + 1 => fwdLevels fX fY (2 * m) (t / 2) (nttBlocks fX fY m t 0 st m) r

/-- The inverse (Gentleman–Sande) level loop
`for (m = n >> 1; m > 1; m >>= 1)`, carrying the running `root_index`;
returns the final state together with the final `root_index`. -/
def gsLevels (fX fY : ℕ → ℕ → ℕ → ℕ) (m t root_index : ℕ) (st : List ℕ) :
    ℕ → (List ℕ × ℕ)
  | 0 => (st, root_index)
  | r + 1 => gsLevels fX fY (m / 2) (2 * t) (root_index + m)
      (nttBlocks fX fY root_index t 0 st m) r

/-- The final two-stage conditional reduction of one element
(ntt.cpp lines 74-83 and 215-224): from `[0, 4q)` to `[0, q)`. -/
def normalizeElt (modulus x : ℕ) : ℕ :=
  let x1 := if 2 * modulus ≤ x then x - 2 * modulus else x
  if modulus ≤ x1 then x1 - modulus else x1

/-- The final `for (i = 0; i < n; ++i)` reduction pass. -/
def normLoop (modulus : ℕ) (st : List ℕ) (i : ℕ) : ℕ → List ℕ
  | 0 => st
  | c + 1 => normLoop modulus
      (st.set i (normalizeElt modulus (st.getD i 0))) (i + 1) c

/-- `X`-output of the forward Harvey butterfly (ntt.cpp lines 63-67):
`tx = X - (2q if X ≥ 2q)`, `Q = MultiplyUIntModLazy<64>(Y, W, Wprec, q)`,
result `tx + Q`.  The branchless mask
`*X - (twice_mod & -(X ≥ twice_mod))` is the displayed conditional. -/
def fwdBFX (modulus : ℕ) (rou prou : ℕ → ℕ) (ridx X Y : ℕ) : ℕ :=
  (if 2 * modulus ≤ X then X - 2 * modulus else X) +
    MultiplyModLazy 64 Y (rou ridx) (prou ridx) modulus

/-- `Y`-output of the forward Harvey butterfly (ntt.cpp line 68):
`tx + 2q - Q`. -/
def fwdBFY (modulus : ℕ) (rou prou : ℕ → ℕ) (ridx X Y : ℕ) : ℕ :=
  (if 2 * modulus ≤ X then X - 2 * modulus else X) + 2 * modulus -
    MultiplyModLazy 64 Y (rou ridx) (prou ridx) modulus

/-- `NTT::ForwardTransformToBitReverse64` (ntt.cpp lines 32-84). -/
def ForwardTransformToBitReverse64 (degree modulus : ℕ)
    (root_of_unity_powers precon_root_of_unity_powers : ℕ → ℕ)
    (elements : List ℕ) : List ℕ :=
  normLoop modulus
    (fwdLevels
      (fwdBFX modulus root_of_unity_powers precon_root_of_unity_powers)
      (fwdBFY modulus root_of_unity_powers precon_root_of_unity_powers)
      1 (degree / 2) elements (Log2 degree))
    0 degree

/-- `X`-output of the reference butterfly (ntt.cpp lines 101-105). -/
def refBFX (modulus : ℕ) (rou : ℕ → ℕ) (ridx X Y : ℕ) : ℕ :=
  AddUIntMod X (MultiplyMod Y (rou ridx) modulus) modulus

/-- `Y`-output of the reference butterfly (ntt.cpp lines 101-105). -/
def refBFY (modulus : ℕ) (rou : ℕ → ℕ) (ridx X Y : ℕ) : ℕ :=
  SubUIntMod X (MultiplyMod Y (rou ridx) modulus) modulus

/-- `NTT::ReferenceForwardTransformToBitReverse` (ntt.cpp lines 86-111);
no Barrett table and no final normalization pass. -/
def ReferenceForwardTransformToBitReverse (degree modulus : ℕ)
    (root_of_unity_powers : ℕ → ℕ) (elements : List ℕ) : List ℕ :=
  fwdLevels (refBFX modulus root_of_unity_powers)
    (refBFY modulus root_of_unity_powers) 1 (degree / 2) elements (Log2 degree)

/-- `X`-output of the inverse Harvey butterfly (ntt.cpp lines 177-180):
`tx = X + Y` then one conditional subtraction of `2q`. -/
def gsBFX (modulus : ℕ) (invrou : ℕ → ℕ) (ridx X Y : ℕ) : ℕ :=
  let tx := X + Y
  if 2 * modulus ≤ tx then tx - 2 * modulus else tx

/-- `Y`-output of the inverse Harvey butterfly (ntt.cpp line 181):
`MultiplyUIntModLazy<64>(X + 2q - Y, W, q)` with the Barrett factor
computed on the fly. -/
def gsBFY (modulus : ℕ) (invrou : ℕ → ℕ) (ridx X Y : ℕ) : ℕ :=
  MultiplyModLazy' 64 (X + 2 * modulus - Y) (invrou ridx) modulus

/-- `X`-output of the fused final inverse level (ntt.cpp lines 201-206). -/
def invFinalBFX (modulus inv_n : ℕ) (ridx X Y : ℕ) : ℕ :=
  MultiplyModLazy' 64
    (let tx := X + Y; if 2 * modulus ≤ tx then tx - 2 * modulus else tx)
    inv_n modulus

/-- `Y`-output of the fused final inverse level (ntt.cpp line 209). -/
def invFinalBFY (modulus inv_n_w : ℕ) (ridx X Y : ℕ) : ℕ :=
  MultiplyModLazy' 64 (X + 2 * modulus - Y) inv_n_w modulus

/-- `NTT::InverseTransformToBitReverse64` (ntt.cpp lines 146-225). -/
def InverseTransformToBitReverse64 (degree modulus : ℕ)
    (inv_root_of_unity_powers : ℕ → ℕ) (elements : List ℕ) : List ℕ :=
  let p := gsLevels (gsBFX modulus inv_root_of_unity_powers)
    (gsBFY modulus inv_root_of_unity_powers)
    (degree / 2) 1 1 elements (Log2 degree - 1)
  let W_op := inv_root_of_unity_powers p.2
  let inv_n := InverseMod degree modulus
  let inv_n_w := MultiplyMod inv_n W_op modulus
  normLoop modulus
    (ctInner
      (pairBF (invFinalBFX modulus inv_n) (invFinalBFY modulus inv_n_w)
        0 (degree / 2))
      0 p.1 (degree / 2))
    0 degree

/-! ### Root-of-unity tables

The table precomputation (`NTT` constructor / `ComputeRootOfUnityPowers`)
is not part of the repository snapshot; the tables are modelled from the
spec (§3, §4.5). -/

/-- Modelled from the spec: `ω_powers[i] = ω^{br(i, log2 N)} mod q`
(spec §3: "two arrays of length `N`, both indexed in bit-reversed order:
`ω_powers[i] = ω^{br(i)}`"). -/
def RootOfUnityPowers (modulus ω k i : ℕ) : ℕ :=
  ω ^ ReverseBits i k % modulus

/-- Modelled from the spec: the parallel Barrett table
`ω_powers_precon[i] = ⌊(ω_powers[i] << 64)/q⌋` (spec §3, shift `S = 64`
for the default path). -/
def PreconRootOfUnityPowers (modulus ω k i : ℕ) : ℕ :=
  RootOfUnityPowers modulus ω k i * w64 / modulus

/-- Decodes a consumption position of the inverse table back to the
bit-reverse index it carries: the inverse butterfly consumes, at the level
with `m` blocks (visited in the order `m = N/2, N/4, …, 1`) and block `i`,
the table entry carrying index `m + i`; position `ridx` inside the
concatenated level segments has `m = 2^{⌊log2 (N - ridx)⌋}` and decodes to
`ridx + 3m - 1 - N`. -/
def InvRootIndex (n ridx : ℕ) : ℕ :=
  ridx + 3 * 2 ^ Log2 (n - ridx) - 1 - n

/-- Modelled from the spec: the inverse table holds the powers of `ω⁻¹`
"in the order consumed by the inverse butterfly" (spec §4.5 step 3), i.e.
entry `ridx ≥ 1` is `ω^{-br(m+i, log2 N)} mod q` for the level/block pair
`(m, i)` that consumes it; entry `0` is unused. -/
def InvRootOfUnityPowers (modulus ω k ridx : ℕ) : ℕ :=
  if ridx = 0 then InverseMod 1 modulus
  else InverseMod (RootOfUnityPowers modulus ω k (InvRootIndex (2 ^ k) ridx))
    modulus

/-! ### Pointwise descriptions of the transform loops -/

section NTTLoopLemmas

variable (fX fY : ℕ → ℕ → ℕ → ℕ)

lemma pairBF_length (ridx t j : ℕ) (st : List ℕ) :
    (pairBF fX fY ridx t j st).length = st.length := by
  simp [pairBF]

lemma ctInner_pairBF_length (ridx t : ℕ) :
    ∀ (c j0 : ℕ) (st : List ℕ),
      (ctInner (pairBF fX fY ridx t) j0 st c).length = st.length := by
  intro c
  induction c with
  | zero => intro j0 st; rfl
  | succ c ih =>
    intro j0 st
    simp only [ctInner]
    rw [ih, pairBF_length]

lemma nttBlocks_length (r0 t : ℕ) :
    ∀ (c i0 : ℕ) (st : List ℕ),
      (nttBlocks fX fY r0 t i0 st c).length = st.length := by
  intro c
  induction c with
  | zero => intro i0 st; rfl
  | succ c ih =>
    intro i0 st
    simp only [nttBlocks]
    rw [ih, ctInner_pairBF_length]

lemma fwdLevels_length :
    ∀ (r m t : ℕ) (st : List ℕ),
      (fwdLevels fX fY m t st r).length = st.length := by
  intro r
  induction r with
  | zero => intro m t st; rfl
  | succ r ih =>
    intro m t st
    simp only [fwdLevels]
    rw [ih, nttBlocks_length]

lemma gsLevels_length :
    ∀ (r m t ridx : ℕ) (st : List ℕ),
      (gsLevels fX fY m t ridx st r).1.length = st.length := by
  intro r
  induction r with
  | zero => intro m t ridx st; rfl
  | succ r ih =>
    intro m t ridx st
    simp only [gsLevels]
    rw [ih, nttBlocks_length]

lemma normLoop_length (q : ℕ) :
    ∀ (c i : ℕ) (st : List ℕ), (normLoop q st i c).length = st.length := by
  intro c
  induction c with
  | zero => intro i st; rfl
  | succ c ih =>
    intro i st
    simp only [normLoop]
    rw [ih, List.length_set]

lemma pairBF_getD (ridx t j : ℕ) (st : List ℕ) (ht : 0 < t)
    (hlen : j + t < st.length) (idx : ℕ) :
    (pairBF fX fY ridx t j st).getD idx 0 =
      if idx = j then fX ridx (st.getD j 0) (st.getD (j + t) 0)
      else if idx = j + t then fY ridx (st.getD j 0) (st.getD (j + t) 0)
      else st.getD idx 0 := by
  unfold pairBF
  rcases eq_or_ne idx (j + t) with h | h
  · subst h
    rw [getD_set_self _ _ _ (by rw [List.length_set]; omega),
      if_neg (by omega), if_pos rfl]
  · rw [getD_set_ne _ _ _ _ (Ne.symm h)]
    rcases eq_or_ne idx j with h2 | h2
    · subst h2
      rw [getD_set_self _ _ _ (by omega), if_pos rfl]
    · rw [getD_set_ne _ _ _ _ (Ne.symm h2), if_neg h2, if_neg h]

/-- The inner loop performs `c ≤ t` disjoint butterflies: positions
`j0 + o` receive the `X`-outputs, positions `j0 + t + o` the `Y`-outputs,
and everything else is untouched; all reads are of the original state. -/
lemma ctInner_pairBF_spec (ridx t : ℕ) (ht : 0 < t) :
    ∀ (c j0 : ℕ) (st : List ℕ), c ≤ t → j0 + t + c ≤ st.length →
      (∀ o < c, (ctInner (pairBF fX fY ridx t) j0 st c).getD (j0 + o) 0 =
        fX ridx (st.getD (j0 + o) 0) (st.getD (j0 + o + t) 0)) ∧
      (∀ o < c, (ctInner (pairBF fX fY ridx t) j0 st c).getD (j0 + t + o) 0 =
        fY ridx (st.getD (j0 + o) 0) (st.getD (j0 + t + o) 0)) ∧
      (∀ idx, idx < j0 ∨ (j0 + c ≤ idx ∧ idx < j0 + t) ∨ j0 + t + c ≤ idx →
        (ctInner (pairBF fX fY ridx t) j0 st c).getD idx 0 = st.getD idx 0) := by
  intro c
  induction c with
  | zero =>
    intro j0 st _ _
    exact ⟨fun o ho => absurd ho (by omega),
      fun o ho => absurd ho (by omega), fun idx _ => rfl⟩
  | succ c ih =>
    intro j0 st hc hlen
    simp only [ctInner]
    have hlen' : (pairBF fX fY ridx t j0 st).length = st.length :=
      pairBF_length fX fY ridx t j0 st
    obtain ⟨ihX, ihY, ihU⟩ := ih (j0 + 1) (pairBF fX fY ridx t j0 st)
      (by omega) (by omega)
    have hg := pairBF_getD fX fY ridx t j0 st ht (by omega)
    refine ⟨?_, ?_, ?_⟩
    · intro o ho
      rcases Nat.eq_zero_or_pos o with ho0 | ho0
      · subst ho0
        have h1 := ihU (j0 + 0) (by omega)
        rw [h1, hg (j0 + 0), if_pos (by omega)]
        norm_num
      · have e1 : j0 + o = j0 + 1 + (o - 1) := by omega
        have e2 : o - 1 < c := by omega
        rw [e1, ihX (o - 1) e2, hg (j0 + 1 + (o - 1)),
          if_neg (by omega), if_neg (by omega),
          hg (j0 + 1 + (o - 1) + t), if_neg (by omega), if_neg (by omega)]
    · intro o ho
      rcases Nat.eq_zero_or_pos o with ho0 | ho0
      · subst ho0
        have h1 := ihU (j0 + t + 0) (by omega)
        rw [h1, hg (j0 + t + 0), if_neg (by omega), if_pos (by omega)]
        norm_num
      · have e1 : j0 + t + o = j0 + 1 + t + (o - 1) := by omega
        have e2 : o - 1 < c := by omega
        have e5 : j0 + o = j0 + 1 + (o - 1) := by omega
        rw [e1, e5, ihY (o - 1) e2, hg (j0 + 1 + (o - 1)),
          if_neg (by omega), if_neg (by omega),
          hg (j0 + 1 + t + (o - 1)), if_neg (by omega), if_neg (by omega)]
    · intro idx hidx
      have h1 := ihU idx (by omega)
      rw [h1, hg idx, if_neg (by omega), if_neg (by omega)]

/-- The block loop: block `b` (at offset `i0 + b`, root index
`r0 + (i0 + b)`) transforms positions `(i0+b)·2t + o` and
`(i0+b)·2t + t + o` for `o < t`; positions outside the processed blocks are
untouched. -/
lemma nttBlocks_spec (r0 t : ℕ) (ht : 0 < t) :
    ∀ (c i0 : ℕ) (st : List ℕ), (i0 + c) * (2 * t) ≤ st.length →
      (∀ b < c, ∀ o < t,
        (nttBlocks fX fY r0 t i0 st c).getD ((i0 + b) * (2 * t) + o) 0 =
          fX (r0 + (i0 + b)) (st.getD ((i0 + b) * (2 * t) + o) 0)
            (st.getD ((i0 + b) * (2 * t) + o + t) 0)) ∧
      (∀ b < c, ∀ o < t,
        (nttBlocks fX fY r0 t i0 st c).getD ((i0 + b) * (2 * t) + t + o) 0 =
          fY (r0 + (i0 + b)) (st.getD ((i0 + b) * (2 * t) + o) 0)
            (st.getD ((i0 + b) * (2 * t) + t + o) 0)) ∧
      (∀ idx, idx < i0 * (2 * t) ∨ (i0 + c) * (2 * t) ≤ idx →
        (nttBlocks fX fY r0 t i0 st c).getD idx 0 = st.getD idx 0) := by
  intro c
  induction c with
  | zero =>
    intro i0 st _
    exact ⟨fun b hb => absurd hb (by omega),
      fun b hb => absurd hb (by omega), fun idx _ => rfl⟩
  | succ c ih =>
    intro i0 st hlen
    simp only [nttBlocks]
    have hmono : (i0 + 1) * (2 * t) ≤ (i0 + (c + 1)) * (2 * t) :=
      Nat.mul_le_mul_right _ (by omega)
    have hlen0 : i0 * (2 * t) + t + t ≤ st.length := by
      have : (i0 + 1) * (2 * t) = i0 * (2 * t) + t + t := by ring
      omega
    have hinlen : (ctInner (pairBF fX fY (r0 + i0) t) (i0 * (2 * t)) st t).length
        = st.length := ctInner_pairBF_length fX fY (r0 + i0) t t _ st
    obtain ⟨inX, inY, inU⟩ :=
      ctInner_pairBF_spec fX fY (r0 + i0) t ht t (i0 * (2 * t)) st (le_refl t)
        hlen0
    obtain ⟨ihX, ihY, ihU⟩ := ih (i0 + 1)
      (ctInner (pairBF fX fY (r0 + i0) t) (i0 * (2 * t)) st t)
      (by rw [hinlen]; have : (i0 + 1 + c) * (2 * t) = (i0 + (c+1)) * (2*t) := by ring
          omega)
    have hup : ∀ idx, (i0 + 1) * (2 * t) ≤ idx →
        (ctInner (pairBF fX fY (r0 + i0) t) (i0 * (2 * t)) st t).getD idx 0 =
          st.getD idx 0 := by
      intro idx hidx
      apply inU
      right; right
      have : (i0 + 1) * (2 * t) = i0 * (2 * t) + t + t := by ring
      omega
    refine ⟨?_, ?_, ?_⟩
    · intro b hb o ho
      rcases Nat.eq_zero_or_pos b with hb0 | hb0
      · subst hb0
        have hpos : (i0 + 0) * (2 * t) + o < (i0 + 1) * (2 * t) := by
          have : (i0 + 1) * (2 * t) = i0 * (2 * t) + t + t := by ring
          have e : (i0 + 0) * (2 * t) = i0 * (2 * t) := by ring
          omega
        rw [ihU _ (Or.inl hpos)]
        have e : (i0 + 0) * (2 * t) = i0 * (2 * t) := by ring
        rw [e]
        exact inX o ho
      · have e1 : (i0 + b) * (2 * t) = (i0 + 1 + (b - 1)) * (2 * t) := by
          congr 1; omega
        have e2 : r0 + (i0 + b) = r0 + (i0 + 1 + (b - 1)) := by omega
        have hle1 : (i0 + 1) * (2 * t) ≤ (i0 + 1 + (b - 1)) * (2 * t) :=
          Nat.mul_le_mul_right _ (by omega)
        rw [e1, e2, ihX (b - 1) (by omega) o ho,
          hup _ (by omega), hup _ (by omega)]
    · intro b hb o ho
      rcases Nat.eq_zero_or_pos b with hb0 | hb0
      · subst hb0
        have hpos : (i0 + 0) * (2 * t) + t + o < (i0 + 1) * (2 * t) := by
          have : (i0 + 1) * (2 * t) = i0 * (2 * t) + t + t := by ring
          have e : (i0 + 0) * (2 * t) = i0 * (2 * t) := by ring
          omega
        rw [ihU _ (Or.inl hpos)]
        have e : (i0 + 0) * (2 * t) = i0 * (2 * t) := by ring
        rw [e]
        exact inY o ho
      · have e1 : (i0 + b) * (2 * t) = (i0 + 1 + (b - 1)) * (2 * t) := by
          congr 1; omega
        have e2 : r0 + (i0 + b) = r0 + (i0 + 1 + (b - 1)) := by omega
        have hle1 : (i0 + 1) * (2 * t) ≤ (i0 + 1 + (b - 1)) * (2 * t) :=
          Nat.mul_le_mul_right _ (by omega)
        rw [e1, e2, ihY (b - 1) (by omega) o ho,
          hup _ (by omega), hup _ (by omega)]
    · intro idx hidx
      have e : (i0 + 1) * (2 * t) = i0 * (2 * t) + t + t := by ring
      rcases hidx with hidx | hidx
      · rw [ihU idx (Or.inl (by omega)), inU idx (Or.inl (by omega))]
      · have e2 : (i0 + 1 + c) * (2 * t) = (i0 + (c + 1)) * (2 * t) := by ring
        rw [ihU idx (Or.inr (by omega)), inU idx (Or.inr (Or.inr (by
          have h3 : (i0 + 1) * (2 * t) ≤ (i0 + (c + 1)) * (2 * t) := hmono
          omega)))]

end NTTLoopLemmas

/-! ### Abstraction of one butterfly level over `ZMod q` -/

section NTTAbstraction

lemma coprime_mod_of_coprime (a n : ℕ) (h : Nat.Coprime a n) :
    Nat.Coprime (a % n) n := by
  unfold Nat.Coprime at *
  calc Nat.gcd (a % n) n = Nat.gcd n a := (Nat.gcd_rec n a).symm
    _ = Nat.gcd a n := Nat.gcd_comm n a
    _ = 1 := h

/-- The search-based `InverseMod` returns the modular inverse whenever it
exists. -/
lemma inverseMod_spec (x q : ℕ) (hq : 1 < q) (hco : Nat.Coprime x q) :
    x * InverseMod x q % q = 1 ∧ InverseMod x q < q := by
  obtain ⟨m, hm⟩ := Nat.exists_mul_emod_eq_one_of_coprime hco hq
  have hmm : x * (m % q) % q = 1 := by
    rw [Nat.mul_mod, Nat.mod_mod_of_dvd m (dvd_refl q), ← Nat.mul_mod]
    exact hm
  have hfind : ((List.range q).find? (fun y => x * y % q == 1)).isSome := by
    rw [List.find?_isSome]
    exact ⟨m % q, List.mem_range.mpr (Nat.mod_lt _ (by omega)), by simpa using hmm⟩
  obtain ⟨y, hy⟩ := Option.isSome_iff_exists.mp hfind
  have h1 : x * y % q = 1 := by simpa using List.find?_some hy
  have h2 : y < q := List.mem_range.mp (List.mem_of_find?_eq_some hy)
  unfold InverseMod
  rw [hy, Option.getD_some]
  exact ⟨h1, h2⟩

/-- All entries at positions `< n` are `< B`. -/
def Bounded (B n : ℕ) (st : List ℕ) : Prop := ∀ i < n, st.getD i 0 < B

/-- The state read in `ZMod q`. -/
def stZ (q : ℕ) (st : List ℕ) : ℕ → ZMod q := fun i => (st.getD i 0 : ZMod q)

/-- One level of butterflies as a transformation of `ZMod q` states:
position `2t·b + r` is the `X`-slot of the pair
`(2t·b + r, 2t·b + r + t)` when `r < t` and the `Y`-slot of
`(2t·b + r - t, 2t·b + r)` otherwise; `b` is the block index. -/
def levelSpecZ {q : ℕ} (gX gY : ℕ → ZMod q → ZMod q → ZMod q) (t : ℕ)
    (φ : ℕ → ZMod q) : ℕ → ZMod q :=
  fun idx =>
    if idx % (2 * t) < t then gX (idx / (2 * t)) (φ idx) (φ (idx + t))
    else gY (idx / (2 * t)) (φ (idx - t)) (φ idx)

lemma levelSpecZ_X {q : ℕ} (gX gY : ℕ → ZMod q → ZMod q → ZMod q)
    (t b r : ℕ) (ht : 0 < t) (hr : r < t) (φ : ℕ → ZMod q) :
    levelSpecZ gX gY t φ (2 * t * b + r) =
      gX b (φ (2 * t * b + r)) (φ (2 * t * b + r + t)) := by
  unfold levelSpecZ
  have hmod : (2 * t * b + r) % (2 * t) = r := by
    rw [Nat.mul_add_mod]
    exact Nat.mod_eq_of_lt (by omega)
  have hdiv : (2 * t * b + r) / (2 * t) = b := by
    rw [Nat.mul_add_div (by omega), Nat.div_eq_of_lt (by omega)]
    omega
  rw [hmod, hdiv, if_pos hr]

lemma levelSpecZ_Y {q : ℕ} (gX gY : ℕ → ZMod q → ZMod q → ZMod q)
    (t b r : ℕ) (ht : 0 < t) (hr : r < t) (φ : ℕ → ZMod q) :
    levelSpecZ gX gY t φ (2 * t * b + t + r) =
      gY b (φ (2 * t * b + r)) (φ (2 * t * b + t + r)) := by
  unfold levelSpecZ
  have e : 2 * t * b + t + r = 2 * t * b + (t + r) := by omega
  have hmod : (2 * t * b + (t + r)) % (2 * t) = t + r := by
    rw [Nat.mul_add_mod]
    exact Nat.mod_eq_of_lt (by omega)
  have hdiv : (2 * t * b + (t + r)) / (2 * t) = b := by
    rw [Nat.mul_add_div (by omega), Nat.div_eq_of_lt (by omega)]
    omega
  have e2 : 2 * t * b + (t + r) - t = 2 * t * b + r := by omega
  rw [e, hmod, hdiv, if_neg (by omega), e2]

/-- `levelSpecZ` only reads its argument inside the block of the output
position, so it respects agreement on an initial segment that is a
multiple of the block size. -/
lemma levelSpecZ_congr {q : ℕ} (gX gY : ℕ → ZMod q → ZMod q → ZMod q)
    (t n : ℕ) (ht : 0 < t) (hdvd : 2 * t ∣ n) (φ ψ : ℕ → ZMod q)
    (h : ∀ i < n, φ i = ψ i) :
    ∀ idx < n, levelSpecZ gX gY t φ idx = levelSpecZ gX gY t ψ idx := by
  intro idx hidx
  have hde := Nat.div_add_mod idx (2 * t)
  set b := idx / (2 * t) with hb
  set r := idx % (2 * t) with hr
  have hrlt : r < 2 * t := Nat.mod_lt _ (by omega)
  have hblock : (b + 1) * (2 * t) ≤ n := by
    rw [← Nat.le_div_iff_mul_le (by omega : 0 < 2 * t)]
    have : b < n / (2 * t) := by
      rw [hb]
      exact Nat.div_lt_div_of_lt_of_dvd hdvd hidx
    omega
  have hidx' : idx = 2 * t * b + r := by omega
  rcases Nat.lt_or_ge r t with hrt | hrt
  · rw [hidx', levelSpecZ_X gX gY t b r ht hrt φ,
      levelSpecZ_X gX gY t b r ht hrt ψ,
      h _ (by nlinarith), h _ (by nlinarith)]
  · have e : idx = 2 * t * b + t + (r - t) := by omega
    rw [e, levelSpecZ_Y gX gY t b (r - t) ht (by omega) φ,
      levelSpecZ_Y gX gY t b (r - t) ht (by omega) ψ,
      h _ (by nlinarith), h _ (by nlinarith)]

/-- One concrete level (a full `nttBlocks` pass) refines `levelSpecZ`:
ranges propagate from `B` to `C`, casts commute, and positions `≥ n` are
untouched. -/
lemma nttLevel_abstraction (q B C : ℕ) (fX fY : ℕ → ℕ → ℕ → ℕ)
    (gX gY : ℕ → ZMod q → ZMod q → ZMod q) (r0 t m n : ℕ)
    (ht : 0 < t) (hn : n = m * (2 * t)) (st : List ℕ) (hlen : n ≤ st.length)
    (hB : Bounded B n st)
    (hfX : ∀ b X Y, b < m → X < B → Y < B → fX (r0 + b) X Y < C ∧
      ((fX (r0 + b) X Y : ℕ) : ZMod q) = gX b (X : ZMod q) (Y : ZMod q))
    (hfY : ∀ b X Y, b < m → X < B → Y < B → fY (r0 + b) X Y < C ∧
      ((fY (r0 + b) X Y : ℕ) : ZMod q) = gY b (X : ZMod q) (Y : ZMod q)) :
    Bounded C n (nttBlocks fX fY r0 t 0 st m) ∧
    (∀ idx < n, stZ q (nttBlocks fX fY r0 t 0 st m) idx =
      levelSpecZ gX gY t (stZ q st) idx) ∧
    (∀ idx, n ≤ idx → (nttBlocks fX fY r0 t 0 st m).getD idx 0 =
      st.getD idx 0) := by
  obtain ⟨bX, bY, bU⟩ := nttBlocks_spec fX fY r0 t ht m 0 st
    (by rw [Nat.zero_add]; omega)
  have key : ∀ idx < n,
      ((nttBlocks fX fY r0 t 0 st m).getD idx 0 < C ∧
       stZ q (nttBlocks fX fY r0 t 0 st m) idx =
         levelSpecZ gX gY t (stZ q st) idx) := by
    intro idx hidx
    have hde := Nat.div_add_mod idx (2 * t)
    set b := idx / (2 * t) with hbdef
    set r := idx % (2 * t) with hrdef
    have hrlt : r < 2 * t := Nat.mod_lt _ (by omega)
    have hblt : b < m := by
      rw [hbdef]
      rw [Nat.div_lt_iff_lt_mul (by omega : 0 < 2 * t)]
      omega
    have hblock : (b + 1) * (2 * t) ≤ n := by
      rw [hn]
      exact Nat.mul_le_mul_right _ (by omega)
    have hidx' : idx = 2 * t * b + r := by omega
    have hb0 : (0 + b) * (2 * t) = 2 * t * b := by ring
    rcases Nat.lt_or_ge r t with hrt | hrt
    · have hx := bX b hblt r hrt
      rw [hb0] at hx
      have hr1 : st.getD (2 * t * b + r) 0 < B := hB _ (by omega)
      have hr2 : st.getD (2 * t * b + r + t) 0 < B := hB _ (by nlinarith)
      have hf := hfX b _ _ hblt hr1 hr2
      constructor
      · rw [hidx', hx]
        have e : r0 + (0 + b) = r0 + b := by omega
        rw [e]
        exact hf.1
      · rw [stZ, hidx', hx]
        have e : r0 + (0 + b) = r0 + b := by omega
        rw [e, hf.2, levelSpecZ_X gX gY t b r ht hrt]
        rfl
    · have hy := bY b hblt (r - t) (by omega)
      rw [hb0] at hy
      have ey : 2 * t * b + t + (r - t) = 2 * t * b + r := by omega
      rw [ey] at hy
      have hr1 : st.getD (2 * t * b + (r - t)) 0 < B := hB _ (by nlinarith)
      have hr2 : st.getD (2 * t * b + r) 0 < B := hB _ (by omega)
      have hf := hfY b _ _ hblt hr1 hr2
      constructor
      · rw [hidx', hy]
        have e : r0 + (0 + b) = r0 + b := by omega
        rw [e]
        exact hf.1
      · rw [stZ, hidx', hy]
        have e : r0 + (0 + b) = r0 + b := by omega
        have e3 : idx = 2 * t * b + t + (r - t) := by omega
        rw [e, hf.2]
        rw [show (2 : ℕ) * t * b + r = 2 * t * b + t + (r - t) by omega,
          levelSpecZ_Y gX gY t b (r - t) ht (by omega)]
        rfl
  refine ⟨fun i hi => (key i hi).1, fun idx hidx => (key idx hidx).2, ?_⟩
  intro idx hidx
  exact bU idx (Or.inr (by rw [Nat.zero_add]; omega))

end NTTAbstraction

/-! ### Level chains over `ZMod q` and the telescoping argument -/

section NTTChains

variable {q : ℕ}

/-- Forward spec chain: stage `a` applies the Cooley–Tukey level with
`t = 2^(k-1-a)` and roots `WF (2^a + b)` for block `b`; lower stages are
applied first. -/
def fwdChainZ (WF : ℕ → ZMod q) (k : ℕ) : ℕ → ℕ → (ℕ → ZMod q) → (ℕ → ZMod q)
  | 0, _, φ => φ
  | r + 1, a, φ => fwdChainZ WF k r (a + 1)
      (levelSpecZ (fun b X Y => X + WF (2 ^ a + b) * Y)
        (fun b X Y => X - WF (2 ^ a + b) * Y) (2 ^ (k - 1 - a)) φ)

/-- Inverse spec chain: stage `a` applies the Gentleman–Sande level with
`t = 2^(k-1-a)` and roots `WI (2^a + b)`; higher stages are applied first
(the stage-`a` level is outermost). -/
def invChainZ (WI : ℕ → ZMod q) (k : ℕ) : ℕ → ℕ → (ℕ → ZMod q) → (ℕ → ZMod q)
  | 0, _, φ => φ
  | r + 1, a, φ =>
      levelSpecZ (fun _ X Y => X + Y)
        (fun b X Y => WI (2 ^ a + b) * (X - Y)) (2 ^ (k - 1 - a))
        (invChainZ WI k r (a + 1) φ)

lemma stage_dvd (k a : ℕ) (ha : a + 1 ≤ k) :
    2 * 2 ^ (k - 1 - a) ∣ 2 ^ k := by
  have e : 2 * 2 ^ (k - 1 - a) = 2 ^ (k - a) := by
    rw [← pow_succ']
    congr 1
    omega
  rw [e]
  exact pow_dvd_pow 2 (by omega)

lemma fwdChainZ_congr (WF : ℕ → ZMod q) (k : ℕ) :
    ∀ (r a : ℕ) (φ ψ : ℕ → ZMod q), a + r ≤ k →
      (∀ i < 2 ^ k, φ i = ψ i) →
      ∀ idx < 2 ^ k, fwdChainZ WF k r a φ idx = fwdChainZ WF k r a ψ idx := by
  intro r
  induction r with
  | zero => intro a φ ψ _ h idx hidx; exact h idx hidx
  | succ r ih =>
    intro a φ ψ hak h idx hidx
    simp only [fwdChainZ]
    exact ih (a + 1) _ _ (by omega)
      (levelSpecZ_congr _ _ _ _ (by positivity) (stage_dvd k a (by omega)) _ _ h)
      idx hidx

lemma invChainZ_congr (WI : ℕ → ZMod q) (k : ℕ) :
    ∀ (r a : ℕ) (φ ψ : ℕ → ZMod q), a + r ≤ k →
      (∀ i < 2 ^ k, φ i = ψ i) →
      ∀ idx < 2 ^ k, invChainZ WI k r a φ idx = invChainZ WI k r a ψ idx := by
  intro r
  induction r with
  | zero => intro a φ ψ _ h idx hidx; exact h idx hidx
  | succ r ih =>
    intro a φ ψ hak h idx hidx
    simp only [invChainZ]
    exact levelSpecZ_congr _ _ _ _ (by positivity) (stage_dvd k a (by omega)) _ _
      (fun i hi => ih (a + 1) _ _ (by omega) h i hi) idx hidx

/-- Peeling an inverse chain at the inner (high-stage) end. -/
lemma invChainZ_snoc (WI : ℕ → ZMod q) (k : ℕ) :
    ∀ (r a : ℕ) (φ : ℕ → ZMod q),
      invChainZ WI k (r + 1) a φ =
        invChainZ WI k r a
          (levelSpecZ (fun _ X Y => X + Y)
            (fun b X Y => WI (2 ^ (a + r) + b) * (X - Y))
            (2 ^ (k - 1 - (a + r))) φ) := by
  intro r
  induction r with
  | zero => intro a φ; rfl
  | succ r ih =>
    intro a φ
    have e : a + 1 + r = a + (r + 1) := by omega
    show levelSpecZ _ _ _ (invChainZ WI k (r + 1) (a + 1) φ) = _
    rw [ih (a + 1) φ]
    simp only [e]
    rfl

/-- `levelSpecZ` of the inverse shape is linear in the state. -/
lemma levelSpecZ_inv_mul (WI' : ℕ → ZMod q) (t : ℕ) (c : ZMod q)
    (ψ : ℕ → ZMod q) (idx : ℕ) :
    levelSpecZ (fun _ X Y => X + Y) (fun b X Y => WI' b * (X - Y)) t
      (fun i => c * ψ i) idx =
    c * levelSpecZ (fun _ X Y => X + Y) (fun b X Y => WI' b * (X - Y)) t
      ψ idx := by
  unfold levelSpecZ
  split_ifs <;> ring

/-- One inverse level undoes the matching forward level up to a factor 2,
for every position in range, provided the block roots multiply to 1. -/
lemma level_collapse (w winv : ℕ → ZMod q) (t n : ℕ) (ht : 0 < t)
    (hdvd : 2 * t ∣ n)
    (hw : ∀ b, (b + 1) * (2 * t) ≤ n → winv b * w b = 1)
    (φ : ℕ → ZMod q) :
    ∀ idx < n,
      levelSpecZ (fun _ X Y => X + Y) (fun b X Y => winv b * (X - Y)) t
        (levelSpecZ (fun b X Y => X + w b * Y)
          (fun b X Y => X - w b * Y) t φ) idx = 2 * φ idx := by
  intro idx hidx
  have hde := Nat.div_add_mod idx (2 * t)
  set b := idx / (2 * t) with hbdef
  set r := idx % (2 * t) with hrdef
  have hrlt : r < 2 * t := Nat.mod_lt _ (by omega)
  have hblock : (b + 1) * (2 * t) ≤ n := by
    rw [← Nat.le_div_iff_mul_le (by omega : 0 < 2 * t)]
    have : b < n / (2 * t) := by
      rw [hbdef]
      exact Nat.div_lt_div_of_lt_of_dvd hdvd hidx
    omega
  have hw1 : winv b * w b = 1 := hw b hblock
  rcases Nat.lt_or_ge r t with hrt | hrt
  · have hidx' : idx = 2 * t * b + r := by omega
    rw [hidx', levelSpecZ_X _ _ t b r ht hrt,
      levelSpecZ_X _ _ t b r ht hrt,
      show 2 * t * b + r + t = 2 * t * b + t + r from by omega,
      levelSpecZ_Y _ _ t b r ht hrt]
    ring
  · have hidx' : idx = 2 * t * b + t + (r - t) := by omega
    rw [hidx', levelSpecZ_Y _ _ t b (r - t) ht (by omega),
      levelSpecZ_X _ _ t b (r - t) ht (by omega),
      show 2 * t * b + (r - t) + t = 2 * t * b + t + (r - t) from by omega,
      levelSpecZ_Y _ _ t b (r - t) ht (by omega)]
    linear_combination (2 * φ (2 * t * b + t + (r - t))) * hw1

/-- The telescoping argument: `r` inverse levels undo the matching `r`
forward levels up to the factor `2^r`. -/
lemma invChain_fwdChain_collapse (WF WI : ℕ → ZMod q) (k : ℕ)
    (hW : ∀ j, 1 ≤ j → j < 2 ^ k → WI j * WF j = 1) :
    ∀ (r a : ℕ) (φ : ℕ → ZMod q), a + r ≤ k →
      ∀ idx < 2 ^ k,
        invChainZ WI k r a (fwdChainZ WF k r a φ) idx =
          (2 ^ r : ZMod q) * φ idx := by
  intro r
  induction r with
  | zero =>
    intro a φ _ idx _
    simp [invChainZ, fwdChainZ]
  | succ r ih =>
    intro a φ hak idx hidx
    have ht : (0 : ℕ) < 2 ^ (k - 1 - a) := by positivity
    have hdvd := stage_dvd k a (by omega)
    simp only [invChainZ, fwdChainZ]
    have hinner : ∀ i < 2 ^ k,
        invChainZ WI k r (a + 1)
          (fwdChainZ WF k r (a + 1)
            (levelSpecZ (fun b X Y => X + WF (2 ^ a + b) * Y)
              (fun b X Y => X - WF (2 ^ a + b) * Y) (2 ^ (k - 1 - a)) φ)) i =
          (2 ^ r : ZMod q) *
            levelSpecZ (fun b X Y => X + WF (2 ^ a + b) * Y)
              (fun b X Y => X - WF (2 ^ a + b) * Y) (2 ^ (k - 1 - a)) φ i :=
      fun i hi => ih (a + 1) _ (by omega) i hi
  -- rewrite the inner chain, pull the scalar through, collapse the pair
    rw [levelSpecZ_congr _ _ _ _ ht hdvd _ _ hinner idx hidx]
    rw [show (fun i => (2 ^ r : ZMod q) *
        levelSpecZ (fun b X Y => X + WF (2 ^ a + b) * Y)
          (fun b X Y => X - WF (2 ^ a + b) * Y) (2 ^ (k - 1 - a)) φ i) =
      (fun i => (2 ^ r : ZMod q) *
        levelSpecZ (fun b X Y => X + WF (2 ^ a + b) * Y)
          (fun b X Y => X - WF (2 ^ a + b) * Y) (2 ^ (k - 1 - a)) φ i)
      from rfl]
    rw [levelSpecZ_inv_mul]
    have hcoll := level_collapse (fun b => WF (2 ^ a + b))
      (fun b => WI (2 ^ a + b)) (2 ^ (k - 1 - a)) (2 ^ k) ht hdvd ?_ φ idx hidx
    · rw [hcoll]
      ring
    · intro b hb
      apply hW
      · have hpa : (0 : ℕ) < 2 ^ a := by positivity
        omega
      · have h2t : 2 * 2 ^ (k - 1 - a) = 2 ^ (k - a) := by
          rw [← pow_succ']
          congr 1
          omega
        rw [h2t] at hb
        have hb' : b + 1 ≤ 2 ^ a := by
          have hq2 : (0 : ℕ) < 2 ^ (k - a) := by positivity
          have hdiv : 2 ^ k / 2 ^ (k - a) = 2 ^ a := by
            rw [Nat.pow_div (by omega) (by norm_num)]
            congr 1
            omega
          have h1 : b + 1 ≤ 2 ^ k / 2 ^ (k - a) :=
            (Nat.le_div_iff_mul_le hq2).mpr hb
          rwa [hdiv] at h1
        have : 2 ^ a + b < 2 ^ a + 2 ^ a := by omega
        have e2 : 2 ^ a + 2 ^ a = 2 ^ (a + 1) := by
          rw [pow_succ]
          ring
        have hle : 2 ^ (a + 1) ≤ 2 ^ k :=
          Nat.pow_le_pow_right (by norm_num) (by omega)
        omega

/-- `levelSpecZ` evaluated at a position in the first block's `X` half. -/
lemma levelSpecZ_X0 {q' : ℕ} (gX gY : ℕ → ZMod q' → ZMod q' → ZMod q')
    (t r : ℕ) (ht : 0 < t) (hr : r < t) (φ : ℕ → ZMod q') :
    levelSpecZ gX gY t φ r = gX 0 (φ r) (φ (r + t)) := by
  have h := levelSpecZ_X gX gY t 0 r ht hr φ
  simpa using h

/-- `levelSpecZ` evaluated at a position in the first block's `Y` half. -/
lemma levelSpecZ_Y0 {q' : ℕ} (gX gY : ℕ → ZMod q' → ZMod q' → ZMod q')
    (t r : ℕ) (ht : 0 < t) (hr : r < t) (φ : ℕ → ZMod q') :
    levelSpecZ gX gY t φ (t + r) = gY 0 (φ r) (φ (t + r)) := by
  have h := levelSpecZ_Y gX gY t 0 r ht hr φ
  simpa using h

/-- The fused final inverse level (scaled by `N⁻¹`) undoes the first
forward level: composing them multiplies every in-range position by
`2·N⁻¹`. -/
lemma final_level_collapse (w : ℕ → ZMod q) (Ninv NinvW : ZMod q) (t : ℕ)
    (ht : 0 < t) (hNW : NinvW * w 0 = Ninv) (φ : ℕ → ZMod q) :
    ∀ idx < 2 * t,
      levelSpecZ (fun _ X Y => Ninv * (X + Y)) (fun _ X Y => NinvW * (X - Y)) t
        (levelSpecZ (fun b X Y => X + w b * Y)
          (fun b X Y => X - w b * Y) t φ) idx = 2 * Ninv * φ idx := by
  intro idx hidx
  rcases Nat.lt_or_ge idx t with hrt | hrt
  · rw [levelSpecZ_X0 _ _ t idx ht hrt,
      levelSpecZ_X0 _ _ t idx ht hrt,
      show idx + t = t + idx from by omega,
      levelSpecZ_Y0 _ _ t idx ht hrt]
    ring
  · obtain ⟨r, hr, rfl⟩ : ∃ r, r < t ∧ idx = t + r :=
      ⟨idx - t, by omega, by omega⟩
    rw [levelSpecZ_Y0 _ _ t r ht hr,
      levelSpecZ_X0 _ _ t r ht hr,
      show r + t = t + r from by omega,
      levelSpecZ_Y0 _ _ t r ht hr]
    linear_combination (2 * φ (t + r)) * hNW

end NTTChains

/-! ### From the concrete loops to the spec chains -/

section NTTConcrete

/-- The concrete forward level loop refines `fwdChainZ`: ranges stay below
`B`, casts agree on `[0, 2^k)`, and positions `≥ 2^k` are untouched. -/
lemma fwdLevels_abstraction (q B : ℕ) (fX fY : ℕ → ℕ → ℕ → ℕ)
    (WF : ℕ → ZMod q) (k : ℕ)
    (hbf : ∀ j X Y, 1 ≤ j → j < 2 ^ k → X < B → Y < B →
      (fX j X Y < B ∧
        ((fX j X Y : ℕ) : ZMod q) = (X : ZMod q) + WF j * (Y : ZMod q)) ∧
      (fY j X Y < B ∧
        ((fY j X Y : ℕ) : ZMod q) = (X : ZMod q) - WF j * (Y : ZMod q))) :
    ∀ (r a : ℕ) (st : List ℕ), a + r ≤ k → 2 ^ k ≤ st.length →
      Bounded B (2 ^ k) st →
      Bounded B (2 ^ k) (fwdLevels fX fY (2 ^ a) (2 ^ (k - 1 - a)) st r) ∧
      (∀ idx < 2 ^ k,
        stZ q (fwdLevels fX fY (2 ^ a) (2 ^ (k - 1 - a)) st r) idx =
          fwdChainZ WF k r a (stZ q st) idx) ∧
      (∀ idx, 2 ^ k ≤ idx →
        (fwdLevels fX fY (2 ^ a) (2 ^ (k - 1 - a)) st r).getD idx 0 =
          st.getD idx 0) := by
  intro r
  induction r with
  | zero =>
    intro a st _ _ hB
    exact ⟨hB, fun idx _ => rfl, fun idx _ => rfl⟩
  | succ r ih =>
    intro a st hak hlen hB
    have ht : (0 : ℕ) < 2 ^ (k - 1 - a) := by positivity
    have hn : 2 ^ k = 2 ^ a * (2 * 2 ^ (k - 1 - a)) := by
      rw [show 2 * 2 ^ (k - 1 - a) = 2 ^ (k - a) from by
        rw [← pow_succ']; congr 1; omega, ← pow_add]
      congr 1
      omega
    have hj : ∀ b, b < 2 ^ a → 1 ≤ 2 ^ a + b ∧ 2 ^ a + b < 2 ^ k := by
      intro b hb
      have hpa : (0 : ℕ) < 2 ^ a := by positivity
      have h2a : 2 ^ a + 2 ^ a = 2 ^ (a + 1) := by rw [pow_succ]; ring
      have hle : 2 ^ (a + 1) ≤ 2 ^ k :=
        Nat.pow_le_pow_right (by norm_num) (by omega)
      omega
    obtain ⟨lB, lC, lU⟩ := nttLevel_abstraction q B B fX fY
      (fun b X Y => X + WF (2 ^ a + b) * Y)
      (fun b X Y => X - WF (2 ^ a + b) * Y)
      (2 ^ a) (2 ^ (k - 1 - a)) (2 ^ a) (2 ^ k) ht hn st hlen hB
      (fun b X Y hb hX hY =>
        (hbf (2 ^ a + b) X Y (hj b hb).1 (hj b hb).2 hX hY).1)
      (fun b X Y hb hX hY =>
        (hbf (2 ^ a + b) X Y (hj b hb).1 (hj b hb).2 hX hY).2)
    have hlen₁ :
        (nttBlocks fX fY (2 ^ a) (2 ^ (k - 1 - a)) 0 st (2 ^ a)).length =
          st.length := nttBlocks_length fX fY _ _ _ _ _
    simp only [fwdLevels]
    rcases r with _ | r'
    · exact ⟨lB, fun idx hidx => lC idx hidx, fun idx hidx => lU idx hidx⟩
    · have e1 : 2 * 2 ^ a = 2 ^ (a + 1) := by rw [pow_succ]; ring
      have e2 : 2 ^ (k - 1 - a) / 2 = 2 ^ (k - 1 - (a + 1)) := by
        rw [show k - 1 - a = (k - 1 - (a + 1)) + 1 from by omega, pow_succ]
        exact Nat.mul_div_cancel _ (by norm_num)
      rw [e1, e2]
      obtain ⟨iB, iC, iU⟩ := ih (a + 1)
        (nttBlocks fX fY (2 ^ a) (2 ^ (k - 1 - a)) 0 st (2 ^ a))
        (by omega) (by omega) lB
      refine ⟨iB, ?_, ?_⟩
      · intro idx hidx
        rw [iC idx hidx,
          fwdChainZ_congr WF k (r' + 1) (a + 1) _ _ (by omega) lC idx hidx]
        rfl
      · intro idx hidx
        rw [iU idx hidx, lU idx hidx]

/-- The concrete inverse level loop refines `invChainZ`, tracking the
running `root_index` (which ends at `2^k - 2^(a-r+1) + 1`). -/
lemma gsLevels_abstraction (q B : ℕ) (fX fY : ℕ → ℕ → ℕ → ℕ)
    (WI : ℕ → ZMod q) (k : ℕ)
    (hbfX : ∀ ridx X Y, X < B → Y < B → fX ridx X Y < B ∧
      ((fX ridx X Y : ℕ) : ZMod q) = (X : ZMod q) + (Y : ZMod q))
    (hbfY : ∀ a b X Y, a + 1 ≤ k → b < 2 ^ a → X < B → Y < B →
      fY (2 ^ k - 2 ^ (a + 1) + 1 + b) X Y < B ∧
      ((fY (2 ^ k - 2 ^ (a + 1) + 1 + b) X Y : ℕ) : ZMod q) =
        WI (2 ^ a + b) * ((X : ZMod q) - (Y : ZMod q))) :
    ∀ (r a : ℕ) (st : List ℕ), r ≤ a → a + 1 ≤ k → 2 ^ k ≤ st.length →
      Bounded B (2 ^ k) st →
      Bounded B (2 ^ k)
        (gsLevels fX fY (2 ^ a) (2 ^ (k - 1 - a))
          (2 ^ k - 2 ^ (a + 1) + 1) st r).1 ∧
      (∀ idx < 2 ^ k,
        stZ q (gsLevels fX fY (2 ^ a) (2 ^ (k - 1 - a))
            (2 ^ k - 2 ^ (a + 1) + 1) st r).1 idx =
          invChainZ WI k r (a - r + 1) (stZ q st) idx) ∧
      (∀ idx, 2 ^ k ≤ idx →
        (gsLevels fX fY (2 ^ a) (2 ^ (k - 1 - a))
          (2 ^ k - 2 ^ (a + 1) + 1) st r).1.getD idx 0 = st.getD idx 0) ∧
      (gsLevels fX fY (2 ^ a) (2 ^ (k - 1 - a))
        (2 ^ k - 2 ^ (a + 1) + 1) st r).2 = 2 ^ k - 2 ^ (a - r + 1) + 1 := by
  intro r
  induction r with
  | zero =>
    intro a st _ _ _ hB
    exact ⟨hB, fun idx _ => rfl, fun idx _ => rfl, rfl⟩
  | succ r ih =>
    intro a st hra hak hlen hB
    have ha1 : 1 ≤ a := by omega
    have ht : (0 : ℕ) < 2 ^ (k - 1 - a) := by positivity
    have hn : 2 ^ k = 2 ^ a * (2 * 2 ^ (k - 1 - a)) := by
      rw [show 2 * 2 ^ (k - 1 - a) = 2 ^ (k - a) from by
        rw [← pow_succ']; congr 1; omega, ← pow_add]
      congr 1
      omega
    obtain ⟨lB, lC, lU⟩ := nttLevel_abstraction q B B fX fY
      (fun _ X Y => X + Y)
      (fun b X Y => WI (2 ^ a + b) * (X - Y))
      (2 ^ k - 2 ^ (a + 1) + 1) (2 ^ (k - 1 - a)) (2 ^ a) (2 ^ k) ht hn st
      hlen hB
      (fun b X Y _ hX hY => hbfX _ X Y hX hY)
      (fun b X Y hb hX hY => hbfY a b X Y hak hb hX hY)
    have hlen₁ :
        (nttBlocks fX fY (2 ^ k - 2 ^ (a + 1) + 1) (2 ^ (k - 1 - a)) 0 st
          (2 ^ a)).length = st.length := nttBlocks_length fX fY _ _ _ _ _
    simp only [gsLevels]
    have h2a : 2 ^ (a + 1) = 2 * 2 ^ a := by rw [pow_succ]; ring
    have hle : 2 ^ (a + 1) ≤ 2 ^ k :=
      Nat.pow_le_pow_right (by norm_num) (by omega)
    have hpa : (0 : ℕ) < 2 ^ a := by positivity
    have hpa1 : (0 : ℕ) < 2 ^ (a - 1) := by positivity
    have h2a1 : 2 ^ a = 2 * 2 ^ (a - 1) := by
      rw [← pow_succ']
      congr 1
      omega
    have ea1 : 2 ^ a / 2 = 2 ^ (a - 1) := by omega
    have ea2 : 2 * 2 ^ (k - 1 - a) = 2 ^ (k - 1 - (a - 1)) := by
      rw [show k - 1 - (a - 1) = (k - 1 - a) + 1 from by omega, pow_succ]
      ring
    have ea3 : 2 ^ k - 2 ^ (a + 1) + 1 + 2 ^ a =
        2 ^ k - 2 ^ (a - 1 + 1) + 1 := by
      rw [show a - 1 + 1 = a from by omega]
      omega
    rw [ea1, ea2, ea3]
    obtain ⟨iB, iC, iU, iR⟩ := ih (a - 1)
      (nttBlocks fX fY (2 ^ k - 2 ^ (a + 1) + 1) (2 ^ (k - 1 - a)) 0 st
        (2 ^ a))
      (by omega) (by omega) (by omega) lB
    refine ⟨iB, ?_, ?_, ?_⟩
    · intro idx hidx
      rw [iC idx hidx]
      rw [show a - 1 - r + 1 = a - r from by omega]
      rw [invChainZ_congr WI k r (a - r) _ _ (by omega) lC idx hidx]
      rw [show a - (r + 1) + 1 = a - r from by omega]
      rw [invChainZ_snoc]
      rw [show a - r + r = a from by omega]
    · intro idx hidx
      rw [iU idx hidx, lU idx hidx]
    · rw [iR]
      rw [show a - 1 - r + 1 = a - (r + 1) + 1 from by omega]

end NTTConcrete

/-! ### Normalization and table decoding -/

section NTTNormalization

lemma normalizeElt_eq_mod (q x : ℕ) (h : x < 4 * q) :
    normalizeElt q x = x % q := by
  simp only [normalizeElt]
  split_ifs with h1 h2 h3
  · rw [mod_eq_sub_of_range x q 3 (by omega) (by omega)]
    omega
  · rw [mod_eq_sub_of_range x q 2 (by omega) (by omega)]
    omega
  · rw [mod_eq_sub_of_range x q 1 (by omega) (by omega)]
    omega
  · exact (Nat.mod_eq_of_lt (by omega)).symm

lemma normLoop_getD (q : ℕ) :
    ∀ (c i : ℕ) (st : List ℕ), i + c ≤ st.length → ∀ j,
      (normLoop q st i c).getD j 0 =
        if i ≤ j ∧ j < i + c then normalizeElt q (st.getD j 0)
        else st.getD j 0 := by
  intro c
  induction c with
  | zero =>
    intro i st _ j
    simp only [normLoop]
    rw [if_neg (by omega)]
  | succ c ih =>
    intro i st hlen j
    simp only [normLoop]
    rw [ih (i + 1) _ (by rw [List.length_set]; omega)]
    rcases Nat.lt_trichotomy j i with hj | hj | hj
    · rw [if_neg (by omega), if_neg (by omega), getD_set_ne _ _ _ _ (by omega)]
    · subst hj
      rw [if_neg (by omega), if_pos (by omega), getD_set_self _ _ _ (by omega)]
    · by_cases hin : j < i + (c + 1)
      · rw [if_pos (by omega), if_pos (by omega),
          getD_set_ne _ _ _ _ (by omega)]
      · rw [if_neg (by omega), if_neg (by omega), getD_set_ne _ _ _ _ (by omega)]

lemma msbAux_spec :
    ∀ (f v a : ℕ), 0 < v → v ≤ f → 2 ^ a ≤ v → v < 2 ^ (a + 1) →
      msbAux f v = a := by
  intro f
  induction f with
  | zero => intro v a h1 h2 _ _; omega
  | succ f ih =>
    intro v a hv hvf hlo hhi
    simp only [msbAux]
    rcases Nat.lt_or_ge v 2 with hv2 | hv2
    · have hv1 : v = 1 := by omega
      rw [if_pos (by omega)]
      by_contra hne
      have ha1 : 1 ≤ a := by omega
      have : (2 : ℕ) ^ 1 ≤ 2 ^ a := Nat.pow_le_pow_right (by norm_num) ha1
      simp at this
      omega
    · rw [if_neg (by omega)]
      have ha1 : 1 ≤ a := by
        by_contra hne
        have ha0 : a = 0 := by omega
        rw [ha0] at hhi
        norm_num at hhi
        omega
      have h1 : 2 ^ (a - 1) ≤ v / 2 := by
        have : 2 ^ a / 2 ≤ v / 2 := Nat.div_le_div_right hlo
        have e : 2 ^ a = 2 * 2 ^ (a - 1) := by
          rw [← pow_succ']
          congr 1
          omega
        omega
      have h2 : v / 2 < 2 ^ (a - 1 + 1) := by
        rw [show a - 1 + 1 = a from by omega]
        rw [Nat.div_lt_iff_lt_mul (by norm_num : (0:ℕ) < 2)]
        have e : 2 ^ (a + 1) = 2 ^ a * 2 := by rw [pow_succ]
        omega
      have := ih (v / 2) (a - 1) (by omega) (by omega) h1 h2
      omega

lemma Log2_sandwich (v a : ℕ) (h1 : 2 ^ a ≤ v) (h2 : v < 2 ^ (a + 1)) :
    Log2 v = a := by
  have hv : 0 < v := lt_of_lt_of_le (by positivity) h1
  exact msbAux_spec v v a hv (le_refl v) h1 h2

lemma Log2_pow (k : ℕ) : Log2 (2 ^ k) = k := by
  have h : (0 : ℕ) < 2 ^ k := by positivity
  exact Log2_sandwich _ _ (le_refl _) (by rw [pow_succ]; omega)

/-- Decoding the consumption-ordered inverse table: the entry consumed at
level `m = 2^a` (blocks counted by `b < 2^a`) carries the bit-reverse index
`2^a + b`. -/
lemma invRootIndex_decode (k a b : ℕ) (hak : a + 1 ≤ k) (hb : b < 2 ^ a) :
    InvRootIndex (2 ^ k) (2 ^ k - 2 ^ (a + 1) + 1 + b) = 2 ^ a + b := by
  have h2a : 2 ^ (a + 1) = 2 * 2 ^ a := by rw [pow_succ]; ring
  have hle : 2 ^ (a + 1) ≤ 2 ^ k :=
    Nat.pow_le_pow_right (by norm_num) hak
  have hpa : (0 : ℕ) < 2 ^ a := by positivity
  have hsub : 2 ^ k - (2 ^ k - 2 ^ (a + 1) + 1 + b) = 2 * 2 ^ a - 1 - b := by
    omega
  unfold InvRootIndex
  rw [hsub, Log2_sandwich (2 * 2 ^ a - 1 - b) a (by omega) (by omega)]
  omega

end NTTNormalization

/-! ### Casting helpers and per-butterfly facts -/

section NTTCast

/-- Subtracting a multiple of `q` (conditionally) does not change the value
in `ZMod q`. -/
lemma cast_condSub (q m X : ℕ) (hdvd : q ∣ m) :
    (((if m ≤ X then X - m else X) : ℕ) : ZMod q) = (X : ZMod q) := by
  split_ifs with h
  · obtain ⟨c, rfl⟩ := hdvd
    rw [Nat.cast_sub h, Nat.cast_mul, ZMod.natCast_self, zero_mul, sub_zero]
  · rfl

lemma nat_eq_of_cast_eq (q x y : ℕ) (hq : 0 < q) (hx : x < q) (hy : y < q)
    (h : (x : ZMod q) = (y : ZMod q)) : x = y := by
  haveI : NeZero q := ⟨by omega⟩
  have hv := congrArg ZMod.val h
  rwa [ZMod.val_cast_of_lt hx, ZMod.val_cast_of_lt hy] at hv

lemma inverseMod_lt (x q : ℕ) (hq : 0 < q) : InverseMod x q < q := by
  unfold InverseMod
  rcases hfind : (List.range q).find? (fun y => x * y % q == 1) with _ | y
  · simpa using hq
  · simp only [Option.getD_some]
    exact List.mem_range.mp (List.mem_of_find?_eq_some hfind)

lemma normalizeElt_lt (q x : ℕ) (hq : 0 < q) (h : x < 4 * q) :
    normalizeElt q x < q := by
  rw [normalizeElt_eq_mod q x h]
  exact Nat.mod_lt _ hq

lemma rootOfUnityPowers_lt (q ω k j : ℕ) (hq : 0 < q) :
    RootOfUnityPowers q ω k j < q := Nat.mod_lt _ hq

lemma invRootOfUnityPowers_lt (q ω k j : ℕ) (hq : 0 < q) :
    InvRootOfUnityPowers q ω k j < q := by
  unfold InvRootOfUnityPowers
  split_ifs <;> exact inverseMod_lt _ _ hq

lemma pow_div_two (k : ℕ) (hk : 1 ≤ k) : 2 ^ k / 2 = 2 ^ (k - 1) := by
  rw [show (2 : ℕ) ^ k = 2 ^ (k - 1) * 2 from by rw [← pow_succ]; congr 1; omega]
  exact Nat.mul_div_cancel _ (by norm_num)

/-- The forward table read in `ZMod q`. -/
def WFtab (q ω k : ℕ) : ℕ → ZMod q :=
  fun j => ((RootOfUnityPowers q ω k j : ℕ) : ZMod q)

/-- The inverse of the forward table entry, read in `ZMod q`. -/
def WItab (q ω k : ℕ) : ℕ → ZMod q :=
  fun j => ((InverseMod (RootOfUnityPowers q ω k j) q : ℕ) : ZMod q)

lemma WItab_mul_WFtab (q ω k : ℕ) (hq : 1 < q) (hco : Nat.Coprime ω q)
    (j : ℕ) : WItab q ω k j * WFtab q ω k j = 1 := by
  have hco' : Nat.Coprime (RootOfUnityPowers q ω k j) q :=
    coprime_mod_of_coprime _ _ (Nat.Coprime.pow_left _ hco)
  obtain ⟨h1, _⟩ := inverseMod_spec _ q hq hco'
  have hc := congrArg (fun n : ℕ => (n : ZMod q)) h1
  simp only at hc
  rw [ZMod.natCast_mod, Nat.cast_mul, Nat.cast_one] at hc
  unfold WItab WFtab
  rw [mul_comm]
  exact hc

/-- The consumption position of the inverse table decodes to the inverse of
the forward entry at the bit-reverse index of the same level/block pair. -/
lemma invRou_eq (q ω k a b : ℕ) (hak : a + 1 ≤ k) (hb : b < 2 ^ a) :
    InvRootOfUnityPowers q ω k (2 ^ k - 2 ^ (a + 1) + 1 + b) =
      InverseMod (RootOfUnityPowers q ω k (2 ^ a + b)) q := by
  unfold InvRootOfUnityPowers
  rw [if_neg (by omega), invRootIndex_decode k a b hak hb]

end NTTCast

section NTTButterflyFacts

/-- Range and `ZMod q` behaviour of the forward Harvey butterfly: inputs in
`[0,4q)` give outputs in `[0,4q)` computing `X ± W·Y`. -/
lemma fwdBF_facts (q : ℕ) (rou prou : ℕ → ℕ) (hq0 : 0 < q) (hq : q < 2 ^ 62)
    (hrou : ∀ j, rou j < q) (hprou : ∀ j, prou j = rou j * 2 ^ 64 / q)
    (j X Y : ℕ) (hX : X < 4 * q) (hY : Y < 4 * q) :
    (fwdBFX q rou prou j X Y < 4 * q ∧
      ((fwdBFX q rou prou j X Y : ℕ) : ZMod q) =
        (X : ZMod q) + ((rou j : ℕ) : ZMod q) * (Y : ZMod q)) ∧
    (fwdBFY q rou prou j X Y < 4 * q ∧
      ((fwdBFY q rou prou j X Y : ℕ) : ZMod q) =
        (X : ZMod q) - ((rou j : ℕ) : ZMod q) * (Y : ZMod q)) := by
  have h2q : 2 * q ≤ w64 := by unfold w64; omega
  have hY64 : Y < 2 ^ 64 := by omega
  unfold fwdBFX fwdBFY
  obtain ⟨hQm, hQlt⟩ := multiplyModLazy_correct 64 Y (rou j) (prou j) q
    (le_refl 64) (hrou j) hY64 (by omega) h2q (hprou j)
  set Q := MultiplyModLazy 64 Y (rou j) (prou j) q with hQdef
  set tx := if 2 * q ≤ X then X - 2 * q else X with htxdef
  have htxlt : tx < 2 * q := by rw [htxdef]; split_ifs with h <;> omega
  have htxcast : ((tx : ℕ) : ZMod q) = (X : ZMod q) := by
    rw [htxdef]; exact cast_condSub q (2 * q) X ⟨2, by ring⟩
  have hQcast : ((Q : ℕ) : ZMod q) = ((rou j : ℕ) : ZMod q) * (Y : ZMod q) := by
    calc ((Q : ℕ) : ZMod q) = ((Q % q : ℕ) : ZMod q) := (ZMod.natCast_mod _ _).symm
      _ = ((Y * rou j % q : ℕ) : ZMod q) := by rw [hQm]
      _ = ((rou j : ℕ) : ZMod q) * (Y : ZMod q) := by
          rw [ZMod.natCast_mod, Nat.cast_mul]; ring
  have h2qz : ((2 * q : ℕ) : ZMod q) = 0 := by
    rw [Nat.cast_mul, ZMod.natCast_self, mul_zero]
  refine ⟨⟨by omega, ?_⟩, by omega, ?_⟩
  · rw [Nat.cast_add, htxcast, hQcast]
  · rw [Nat.cast_sub (by omega), Nat.cast_add, htxcast, h2qz, hQcast]
    ring

/-- Range and `ZMod q` behaviour of the reference butterfly: outputs are
always in `[0,q)` and compute `X ± W·Y`. -/
lemma refBF_facts (q : ℕ) (rou : ℕ → ℕ) (hq0 : 0 < q) (j X Y : ℕ) :
    (refBFX q rou j X Y < q ∧
      ((refBFX q rou j X Y : ℕ) : ZMod q) =
        (X : ZMod q) + ((rou j : ℕ) : ZMod q) * (Y : ZMod q)) ∧
    (refBFY q rou j X Y < q ∧
      ((refBFY q rou j X Y : ℕ) : ZMod q) =
        (X : ZMod q) - ((rou j : ℕ) : ZMod q) * (Y : ZMod q)) := by
  unfold refBFX refBFY AddUIntMod SubUIntMod MultiplyMod
  have hz : Y * rou j % q < q := Nat.mod_lt _ hq0
  refine ⟨⟨Nat.mod_lt _ hq0, ?_⟩, Nat.mod_lt _ hq0, ?_⟩
  · rw [ZMod.natCast_mod, Nat.cast_add, ZMod.natCast_mod, Nat.cast_mul]
    ring
  · rw [ZMod.natCast_mod, Nat.cast_add, Nat.cast_sub (by omega),
      ZMod.natCast_self, ZMod.natCast_mod, Nat.cast_mul]
    ring

/-- Range and `ZMod q` behaviour of the inverse (Gentleman–Sande) butterfly:
inputs in `[0,2q)` give outputs in `[0,2q)` computing `X+Y` and
`W⁻¹·(X−Y)`. -/
lemma gsBF_facts (q : ℕ) (invrou : ℕ → ℕ) (hq0 : 0 < q) (hq : q < 2 ^ 62)
    (hinv : ∀ j, invrou j < q) (j X Y : ℕ) (hX : X < 2 * q)
    (hY : Y < 2 * q) :
    (gsBFX q invrou j X Y < 2 * q ∧
      ((gsBFX q invrou j X Y : ℕ) : ZMod q) = (X : ZMod q) + (Y : ZMod q)) ∧
    (gsBFY q invrou j X Y < 2 * q ∧
      ((gsBFY q invrou j X Y : ℕ) : ZMod q) =
        ((invrou j : ℕ) : ZMod q) * ((X : ZMod q) - (Y : ZMod q))) := by
  have h2q : 2 * q ≤ w64 := by unfold w64; omega
  have harg : X + 2 * q - Y < 2 ^ 64 := by omega
  simp only [gsBFX, gsBFY]
  obtain ⟨hQm, hQlt⟩ := multiplyModLazy'_correct 64 (X + 2 * q - Y) (invrou j)
    q (le_refl 64) (hinv j) harg (by omega) h2q
  have h2qz : ((2 * q : ℕ) : ZMod q) = 0 := by
    rw [Nat.cast_mul, ZMod.natCast_self, mul_zero]
  refine ⟨⟨by split_ifs <;> omega, ?_⟩, hQlt, ?_⟩
  · rw [cast_condSub q (2 * q) (X + Y) ⟨2, by ring⟩, Nat.cast_add]
  · calc ((MultiplyModLazy' 64 (X + 2 * q - Y) (invrou j) q : ℕ) : ZMod q)
        = ((MultiplyModLazy' 64 (X + 2 * q - Y) (invrou j) q % q : ℕ) : ZMod q) :=
          (ZMod.natCast_mod _ _).symm
      _ = (((X + 2 * q - Y) * invrou j % q : ℕ) : ZMod q) := by rw [hQm]
      _ = ((invrou j : ℕ) : ZMod q) * ((X : ZMod q) - (Y : ZMod q)) := by
          rw [ZMod.natCast_mod, Nat.cast_mul, Nat.cast_sub (by omega),
            Nat.cast_add, h2qz]
          ring

/-- Range and `ZMod q` behaviour of the fused final inverse butterfly. -/
lemma invFinalBF_facts (q inv_n inv_n_w : ℕ) (hq0 : 0 < q) (hq : q < 2 ^ 62)
    (hn : inv_n < q) (hw : inv_n_w < q) (j X Y : ℕ) (hX : X < 2 * q)
    (hY : Y < 2 * q) :
    (invFinalBFX q inv_n j X Y < 2 * q ∧
      ((invFinalBFX q inv_n j X Y : ℕ) : ZMod q) =
        ((inv_n : ℕ) : ZMod q) * ((X : ZMod q) + (Y : ZMod q))) ∧
    (invFinalBFY q inv_n_w j X Y < 2 * q ∧
      ((invFinalBFY q inv_n_w j X Y : ℕ) : ZMod q) =
        ((inv_n_w : ℕ) : ZMod q) * ((X : ZMod q) - (Y : ZMod q))) := by
  have h2q : 2 * q ≤ w64 := by unfold w64; omega
  simp only [invFinalBFX, invFinalBFY]
  have h2qz : ((2 * q : ℕ) : ZMod q) = 0 := by
    rw [Nat.cast_mul, ZMod.natCast_self, mul_zero]
  have htxlt : (if 2 * q ≤ X + Y then X + Y - 2 * q else X + Y) < 2 * q := by
    split_ifs <;> omega
  have htx64 : (if 2 * q ≤ X + Y then X + Y - 2 * q else X + Y) < 2 ^ 64 := by
    omega
  obtain ⟨hXm, hXlt⟩ := multiplyModLazy'_correct 64
    (if 2 * q ≤ X + Y then X + Y - 2 * q else X + Y) inv_n q (le_refl 64) hn
    htx64 (by omega) h2q
  have harg : X + 2 * q - Y < 2 ^ 64 := by omega
  obtain ⟨hYm, hYlt⟩ := multiplyModLazy'_correct 64 (X + 2 * q - Y) inv_n_w q
    (le_refl 64) hw harg (by omega) h2q
  refine ⟨⟨hXlt, ?_⟩, hYlt, ?_⟩
  · calc ((MultiplyModLazy' 64 (if 2 * q ≤ X + Y then X + Y - 2 * q else X + Y)
          inv_n q : ℕ) : ZMod q)
        = ((MultiplyModLazy' 64 (if 2 * q ≤ X + Y then X + Y - 2 * q else X + Y)
            inv_n q % q : ℕ) : ZMod q) := (ZMod.natCast_mod _ _).symm
      _ = (((if 2 * q ≤ X + Y then X + Y - 2 * q else X + Y) * inv_n % q : ℕ) :
            ZMod q) := by rw [hXm]
      _ = ((inv_n : ℕ) : ZMod q) * ((X : ZMod q) + (Y : ZMod q)) := by
          rw [ZMod.natCast_mod, Nat.cast_mul,
            cast_condSub q (2 * q) (X + Y) ⟨2, by ring⟩, Nat.cast_add]
          ring
  · calc ((MultiplyModLazy' 64 (X + 2 * q - Y) inv_n_w q : ℕ) : ZMod q)
        = ((MultiplyModLazy' 64 (X + 2 * q - Y) inv_n_w q % q : ℕ) : ZMod q) :=
          (ZMod.natCast_mod _ _).symm
      _ = (((X + 2 * q - Y) * inv_n_w % q : ℕ) : ZMod q) := by rw [hYm]
      _ = ((inv_n_w : ℕ) : ZMod q) * ((X : ZMod q) - (Y : ZMod q)) := by
          rw [ZMod.natCast_mod, Nat.cast_mul, Nat.cast_sub (by omega),
            Nat.cast_add, h2qz]
          ring

/-- The fused final level is jointly linear in the state. -/
lemma levelSpecZ_scale {q' : ℕ} (A B c : ZMod q') (t : ℕ) (ψ : ℕ → ZMod q')
    (idx : ℕ) :
    levelSpecZ (fun _ X Y => A * (X + Y)) (fun _ X Y => B * (X - Y)) t
      (fun i => c * ψ i) idx =
    c * levelSpecZ (fun _ X Y => A * (X + Y)) (fun _ X Y => B * (X - Y)) t
      ψ idx := by
  unfold levelSpecZ
  split_ifs <;> ring

/-- A single-block `nttBlocks` pass is exactly the final inner loop of the
inverse transform. -/
lemma nttBlocks_one (fX fY : ℕ → ℕ → ℕ → ℕ) (t : ℕ) (st : List ℕ) :
    nttBlocks fX fY 0 t 0 st 1 = ctInner (pairBF fX fY 0 t) 0 st t := by
  show ctInner (pairBF fX fY (0 + 0) t) (0 * (2 * t)) st t =
    ctInner (pairBF fX fY 0 t) 0 st t
  rw [Nat.zero_add, Nat.zero_mul]

end NTTButterflyFacts

/-! ### Full forward transform, reference transform, and the claims -/

section NTTForwardSpec

/-- The fast forward transform with the spec tables: output length,
reduction of every entry to `[0,q)`, and the `ZMod q` content as the
forward chain of butterfly levels. -/
lemma forward_transform_spec (k q ω : ℕ) (a : List ℕ) (hk : 1 ≤ k)
    (hq0 : 0 < q) (hq : q < 2 ^ 62) (hlen : a.length = 2 ^ k)
    (hin : ∀ i < 2 ^ k, a.getD i 0 < q) :
    (ForwardTransformToBitReverse64 (2 ^ k) q (RootOfUnityPowers q ω k)
        (PreconRootOfUnityPowers q ω k) a).length = 2 ^ k ∧
    (∀ i < 2 ^ k,
      (ForwardTransformToBitReverse64 (2 ^ k) q (RootOfUnityPowers q ω k)
        (PreconRootOfUnityPowers q ω k) a).getD i 0 < q) ∧
    (∀ i < 2 ^ k,
      stZ q (ForwardTransformToBitReverse64 (2 ^ k) q (RootOfUnityPowers q ω k)
        (PreconRootOfUnityPowers q ω k) a) i =
      fwdChainZ (WFtab q ω k) k k 0 (stZ q a) i) := by
  have hrlt : ∀ j, RootOfUnityPowers q ω k j < q :=
    fun j => rootOfUnityPowers_lt q ω k j hq0
  have hbf : ∀ j X Y, 1 ≤ j → j < 2 ^ k → X < 4 * q → Y < 4 * q →
      (fwdBFX q (RootOfUnityPowers q ω k) (PreconRootOfUnityPowers q ω k)
          j X Y < 4 * q ∧
        ((fwdBFX q (RootOfUnityPowers q ω k) (PreconRootOfUnityPowers q ω k)
          j X Y : ℕ) : ZMod q) =
          (X : ZMod q) + WFtab q ω k j * (Y : ZMod q)) ∧
      (fwdBFY q (RootOfUnityPowers q ω k) (PreconRootOfUnityPowers q ω k)
          j X Y < 4 * q ∧
        ((fwdBFY q (RootOfUnityPowers q ω k) (PreconRootOfUnityPowers q ω k)
          j X Y : ℕ) : ZMod q) =
          (X : ZMod q) - WFtab q ω k j * (Y : ZMod q)) :=
    fun j X Y _ _ hX hY =>
      fwdBF_facts q _ _ hq0 hq hrlt (fun _ => rfl) j X Y hX hY
  have hBa : Bounded (4 * q) (2 ^ k) a := fun i hi => by
    have := hin i hi; omega
  have habs := fwdLevels_abstraction q (4 * q)
    (fwdBFX q (RootOfUnityPowers q ω k) (PreconRootOfUnityPowers q ω k))
    (fwdBFY q (RootOfUnityPowers q ω k) (PreconRootOfUnityPowers q ω k))
    (WFtab q ω k) k hbf k 0 a (by omega) (by omega) hBa
  rw [pow_zero, Nat.sub_zero, ← pow_div_two k hk] at habs
  obtain ⟨hGB, hGC, _⟩ := habs
  have hGlen :
      (fwdLevels
        (fwdBFX q (RootOfUnityPowers q ω k) (PreconRootOfUnityPowers q ω k))
        (fwdBFY q (RootOfUnityPowers q ω k) (PreconRootOfUnityPowers q ω k))
        1 (2 ^ k / 2) a k).length = 2 ^ k := by
    rw [fwdLevels_length]; exact hlen
  have hFeq : ForwardTransformToBitReverse64 (2 ^ k) q
      (RootOfUnityPowers q ω k) (PreconRootOfUnityPowers q ω k) a =
      normLoop q
        (fwdLevels
          (fwdBFX q (RootOfUnityPowers q ω k) (PreconRootOfUnityPowers q ω k))
          (fwdBFY q (RootOfUnityPowers q ω k) (PreconRootOfUnityPowers q ω k))
          1 (2 ^ k / 2) a k) 0 (2 ^ k) := by
    simp only [ForwardTransformToBitReverse64]
    rw [Log2_pow]
  rw [hFeq]
  have hnl := normLoop_getD q (2 ^ k) 0 _ (by rw [hGlen]; omega)
  refine ⟨?_, ?_, ?_⟩
  · rw [normLoop_length]; exact hGlen
  · intro i hi
    rw [hnl i, if_pos ⟨by omega, by omega⟩]
    exact normalizeElt_lt q _ hq0 (hGB i hi)
  · intro i hi
    have hc := hGC i hi
    simp only [stZ] at hc ⊢
    rw [hnl i, if_pos ⟨by omega, by omega⟩,
      normalizeElt_eq_mod q _ (hGB i hi), ZMod.natCast_mod]
    exact hc

end NTTForwardSpec

section ClaimC5

/-- **C5**: on inputs in `[0,q)` (with the admissible bound `q < 2^62`),
the forward Harvey butterfly maps `[0,4q)` inputs to `[0,4q)` outputs, the
whole buffer stays in `[0,4q)` after every butterfly level of
`ForwardTransformToBitReverse64`, and after the final normalization pass
every output entry is in `[0,q)`. -/
theorem ntt_C5_lazy_invariant (k q ω : ℕ) (a : List ℕ) (hk : 1 ≤ k)
    (hq0 : 0 < q) (hq : q < 2 ^ 62) (hlen : a.length = 2 ^ k)
    (hin : ∀ i < 2 ^ k, a.getD i 0 < q) :
    (∀ j X Y, X < 4 * q → Y < 4 * q →
      fwdBFX q (RootOfUnityPowers q ω k) (PreconRootOfUnityPowers q ω k)
          j X Y < 4 * q ∧
      fwdBFY q (RootOfUnityPowers q ω k) (PreconRootOfUnityPowers q ω k)
          j X Y < 4 * q) ∧
    (∀ r ≤ k, Bounded (4 * q) (2 ^ k)
      (fwdLevels
        (fwdBFX q (RootOfUnityPowers q ω k) (PreconRootOfUnityPowers q ω k))
        (fwdBFY q (RootOfUnityPowers q ω k) (PreconRootOfUnityPowers q ω k))
        1 (2 ^ k / 2) a r)) ∧
    (∀ i < 2 ^ k,
      (ForwardTransformToBitReverse64 (2 ^ k) q (RootOfUnityPowers q ω k)
        (PreconRootOfUnityPowers q ω k) a).getD i 0 < q) := by
  have hrlt : ∀ j, RootOfUnityPowers q ω k j < q :=
    fun j => rootOfUnityPowers_lt q ω k j hq0
  have hbf : ∀ j X Y, 1 ≤ j → j < 2 ^ k → X < 4 * q → Y < 4 * q →
      (fwdBFX q (RootOfUnityPowers q ω k) (PreconRootOfUnityPowers q ω k)
          j X Y < 4 * q ∧
        ((fwdBFX q (RootOfUnityPowers q ω k) (PreconRootOfUnityPowers q ω k)
          j X Y : ℕ) : ZMod q) =
          (X : ZMod q) + WFtab q ω k j * (Y : ZMod q)) ∧
      (fwdBFY q (RootOfUnityPowers q ω k) (PreconRootOfUnityPowers q ω k)
          j X Y < 4 * q ∧
        ((fwdBFY q (RootOfUnityPowers q ω k) (PreconRootOfUnityPowers q ω k)
          j X Y : ℕ) : ZMod q) =
          (X : ZMod q) - WFtab q ω k j * (Y : ZMod q)) :=
    fun j X Y _ _ hX hY =>
      fwdBF_facts q _ _ hq0 hq hrlt (fun _ => rfl) j X Y hX hY
  have hBa : Bounded (4 * q) (2 ^ k) a := fun i hi => by
    have := hin i hi; omega
  refine ⟨?_, ?_, (forward_transform_spec k q ω a hk hq0 hq hlen hin).2.1⟩
  · intro j X Y hX hY
    obtain ⟨⟨h1, _⟩, h2, _⟩ :=
      fwdBF_facts q _ _ hq0 hq hrlt (fun _ => rfl) j X Y hX hY
    exact ⟨h1, h2⟩
  · intro r hr
    have habs := fwdLevels_abstraction q (4 * q)
      (fwdBFX q (RootOfUnityPowers q ω k) (PreconRootOfUnityPowers q ω k))
      (fwdBFY q (RootOfUnityPowers q ω k) (PreconRootOfUnityPowers q ω k))
      (WFtab q ω k) k hbf r 0 a (by omega) (by omega) hBa
    rw [pow_zero, Nat.sub_zero, ← pow_div_two k hk] at habs
    exact habs.1

/-- Witness for `ntt_C5_lazy_invariant` at `N = 8`, `q = 17`, `ω = 3`,
`a = [1,…,8]`. -/
theorem ntt_C5_lazy_invariant_witness :
    (1 ≤ 3 ∧ 0 < 17 ∧ 17 < 2 ^ 62 ∧
      ([1, 2, 3, 4, 5, 6, 7, 8] : List ℕ).length = 2 ^ 3 ∧
      (∀ i < 2 ^ 3, ([1, 2, 3, 4, 5, 6, 7, 8] : List ℕ).getD i 0 < 17)) ∧
    ((∀ j X Y, X < 4 * 17 → Y < 4 * 17 →
      fwdBFX 17 (RootOfUnityPowers 17 3 3) (PreconRootOfUnityPowers 17 3 3)
          j X Y < 4 * 17 ∧
      fwdBFY 17 (RootOfUnityPowers 17 3 3) (PreconRootOfUnityPowers 17 3 3)
          j X Y < 4 * 17) ∧
    (∀ r ≤ 3, Bounded (4 * 17) (2 ^ 3)
      (fwdLevels
        (fwdBFX 17 (RootOfUnityPowers 17 3 3) (PreconRootOfUnityPowers 17 3 3))
        (fwdBFY 17 (RootOfUnityPowers 17 3 3) (PreconRootOfUnityPowers 17 3 3))
        1 (2 ^ 3 / 2) [1, 2, 3, 4, 5, 6, 7, 8] r)) ∧
    (∀ i < 2 ^ 3,
      (ForwardTransformToBitReverse64 (2 ^ 3) 17 (RootOfUnityPowers 17 3 3)
        (PreconRootOfUnityPowers 17 3 3) [1, 2, 3, 4, 5, 6, 7, 8]).getD i 0
        < 17)) :=
  ⟨⟨by decide, by decide, by decide, by decide, by decide⟩,
    ntt_C5_lazy_invariant 3 17 3 [1, 2, 3, 4, 5, 6, 7, 8] (by decide)
      (by decide) (by decide) (by decide) (by decide)⟩

end ClaimC5

section ClaimC3

/-- **C3**: on inputs in `[0,q)` with the spec tables and an admissible
modulus (`0 < q < 2^62`, `N = 2^k ≥ 2`), the Barrett-accelerated scalar
forward transform and the pure reference forward transform return
identical vectors.  (No property of `ω` is needed: both transforms apply
the same abstract butterfly network to the same table.) -/
theorem ntt_C3_reference_agreement (k q ω : ℕ) (a : List ℕ) (hk : 1 ≤ k)
    (hq0 : 0 < q) (hq : q < 2 ^ 62) (hlen : a.length = 2 ^ k)
    (hin : ∀ i < 2 ^ k, a.getD i 0 < q) :
    ForwardTransformToBitReverse64 (2 ^ k) q (RootOfUnityPowers q ω k)
      (PreconRootOfUnityPowers q ω k) a =
    ReferenceForwardTransformToBitReverse (2 ^ k) q (RootOfUnityPowers q ω k)
      a := by
  obtain ⟨hFlen, hFlt, hFcast⟩ := forward_transform_spec k q ω a hk hq0 hq
    hlen hin
  -- reference side
  have hbfref : ∀ j X Y, 1 ≤ j → j < 2 ^ k → X < q → Y < q →
      (refBFX q (RootOfUnityPowers q ω k) j X Y < q ∧
        ((refBFX q (RootOfUnityPowers q ω k) j X Y : ℕ) : ZMod q) =
          (X : ZMod q) + WFtab q ω k j * (Y : ZMod q)) ∧
      (refBFY q (RootOfUnityPowers q ω k) j X Y < q ∧
        ((refBFY q (RootOfUnityPowers q ω k) j X Y : ℕ) : ZMod q) =
          (X : ZMod q) - WFtab q ω k j * (Y : ZMod q)) :=
    fun j X Y _ _ _ _ => refBF_facts q _ hq0 j X Y
  have habs := fwdLevels_abstraction q q
    (refBFX q (RootOfUnityPowers q ω k)) (refBFY q (RootOfUnityPowers q ω k))
    (WFtab q ω k) k hbfref k 0 a (by omega) (by omega) hin
  rw [pow_zero, Nat.sub_zero, ← pow_div_two k hk] at habs
  obtain ⟨hRB, hRC, _⟩ := habs
  have hReq : ReferenceForwardTransformToBitReverse (2 ^ k) q
      (RootOfUnityPowers q ω k) a =
      fwdLevels (refBFX q (RootOfUnityPowers q ω k))
        (refBFY q (RootOfUnityPowers q ω k)) 1 (2 ^ k / 2) a k := by
    simp only [ReferenceForwardTransformToBitReverse]
    rw [Log2_pow]
  rw [hReq]
  have hRlen : (fwdLevels (refBFX q (RootOfUnityPowers q ω k))
      (refBFY q (RootOfUnityPowers q ω k)) 1 (2 ^ k / 2) a k).length =
      2 ^ k := by
    rw [fwdLevels_length]; exact hlen
  apply List.ext_getElem (by rw [hFlen, hRlen])
  intro i hi1 hi2
  have hik : i < 2 ^ k := by rw [hFlen] at hi1; exact hi1
  rw [← List.getD_eq_getElem _ 0 hi1, ← List.getD_eq_getElem _ 0 hi2]
  apply nat_eq_of_cast_eq q _ _ hq0 (hFlt i hik) (hRB i hik)
  have h1 := hFcast i hik
  have h2 := hRC i hik
  simp only [stZ] at h1 h2
  rw [h1, h2]

/-- Witness for `ntt_C3_reference_agreement` at `N = 8`, `q = 17`,
`ω = 3`, `a = [1,…,8]`. -/
theorem ntt_C3_reference_agreement_witness :
    (1 ≤ 3 ∧ 0 < 17 ∧ 17 < 2 ^ 62 ∧
      ([1, 2, 3, 4, 5, 6, 7, 8] : List ℕ).length = 2 ^ 3 ∧
      (∀ i < 2 ^ 3, ([1, 2, 3, 4, 5, 6, 7, 8] : List ℕ).getD i 0 < 17)) ∧
    ForwardTransformToBitReverse64 (2 ^ 3) 17 (RootOfUnityPowers 17 3 3)
      (PreconRootOfUnityPowers 17 3 3) [1, 2, 3, 4, 5, 6, 7, 8] =
    ReferenceForwardTransformToBitReverse (2 ^ 3) 17 (RootOfUnityPowers 17 3 3)
      [1, 2, 3, 4, 5, 6, 7, 8] :=
  ⟨⟨by decide, by decide, by decide, by decide, by decide⟩,
    ntt_C3_reference_agreement 3 17 3 [1, 2, 3, 4, 5, 6, 7, 8] (by decide)
      (by decide) (by decide) (by decide) (by decide)⟩

end ClaimC3

section ClaimC1

/-- **C1**: the NTT round trip.  For `N = 2^k ≥ 2`, an admissible modulus
(`1 < q < 2^62`, `q ≡ 1 (mod 2N)`) and correctly precomputed spec tables
(any `ω` invertible mod `q` — a primitive `2N`-th root of unity in
particular), applying `ForwardTransformToBitReverse64` and then
`InverseTransformToBitReverse64` to an input vector with all entries in
`[0,q)` returns the input vector bitwise. -/
theorem ntt_C1_roundtrip (k q ω : ℕ) (a : List ℕ) (hk : 1 ≤ k)
    (hq1 : 1 < q) (hq : q < 2 ^ 62) (hqmod : q % (2 * 2 ^ k) = 1)
    (hco : Nat.Coprime ω q) (hlen : a.length = 2 ^ k)
    (hin : ∀ i < 2 ^ k, a.getD i 0 < q) :
    InverseTransformToBitReverse64 (2 ^ k) q (InvRootOfUnityPowers q ω k)
      (ForwardTransformToBitReverse64 (2 ^ k) q (RootOfUnityPowers q ω k)
        (PreconRootOfUnityPowers q ω k) a) = a := by
  obtain ⟨k', rfl⟩ : ∃ k', k = k' + 1 := ⟨k - 1, by omega⟩
  have hq0 : 0 < q := by omega
  have hqodd : q % 2 = 1 := by
    have h2 : (2 : ℕ) ∣ 2 * 2 ^ (k' + 1) := ⟨2 ^ (k' + 1), rfl⟩
    have hmm := Nat.mod_mod_of_dvd q h2
    omega
  have hcopN : Nat.Coprime (2 ^ (k' + 1)) q :=
    Nat.Coprime.pow_left _ (Nat.coprime_two_left.mpr (Nat.odd_iff.mpr hqodd))
  have hdeg2 : 2 ^ (k' + 1) / 2 = 2 ^ k' := by
    rw [pow_succ]
    exact Nat.mul_div_cancel _ (by norm_num)
  have hWinv : ∀ j, WItab q ω (k' + 1) j * WFtab q ω (k' + 1) j = 1 :=
    fun j => WItab_mul_WFtab q ω (k' + 1) hq1 hco j
  have hinvlt : ∀ j, InvRootOfUnityPowers q ω (k' + 1) j < q :=
    fun j => invRootOfUnityPowers_lt q ω (k' + 1) j hq0
  obtain ⟨hFlen, hFlt, hFcast⟩ := forward_transform_spec (k' + 1) q ω a
    (by omega) hq0 hq hlen hin
  set F := ForwardTransformToBitReverse64 (2 ^ (k' + 1)) q
    (RootOfUnityPowers q ω (k' + 1)) (PreconRootOfUnityPowers q ω (k' + 1)) a
    with hFdef
  have hF2q : Bounded (2 * q) (2 ^ (k' + 1)) F := fun i hi => by
    have := hFlt i hi; omega
  simp only [InverseTransformToBitReverse64]
  rw [Log2_pow, Nat.add_sub_cancel, hdeg2]
  -- the Gentleman–Sande level loop refines the inverse chain
  have hbfX : ∀ ridx X Y, X < 2 * q → Y < 2 * q →
      gsBFX q (InvRootOfUnityPowers q ω (k' + 1)) ridx X Y < 2 * q ∧
      ((gsBFX q (InvRootOfUnityPowers q ω (k' + 1)) ridx X Y : ℕ) : ZMod q) =
        (X : ZMod q) + (Y : ZMod q) :=
    fun ridx X Y hX hY =>
      (gsBF_facts q _ hq0 hq hinvlt ridx X Y hX hY).1
  have hbfY : ∀ a' b X Y, a' + 1 ≤ k' + 1 → b < 2 ^ a' → X < 2 * q →
      Y < 2 * q →
      gsBFY q (InvRootOfUnityPowers q ω (k' + 1))
        (2 ^ (k' + 1) - 2 ^ (a' + 1) + 1 + b) X Y < 2 * q ∧
      ((gsBFY q (InvRootOfUnityPowers q ω (k' + 1))
        (2 ^ (k' + 1) - 2 ^ (a' + 1) + 1 + b) X Y : ℕ) : ZMod q) =
        WItab q ω (k' + 1) (2 ^ a' + b) *
          ((X : ZMod q) - (Y : ZMod q)) := by
    intro a' b X Y hak hb hX hY
    obtain ⟨h1, h2⟩ := (gsBF_facts q _ hq0 hq hinvlt
      (2 ^ (k' + 1) - 2 ^ (a' + 1) + 1 + b) X Y hX hY).2
    refine ⟨h1, ?_⟩
    rw [h2, invRou_eq q ω (k' + 1) a' b hak hb]
    rfl
  have habs := gsLevels_abstraction q (2 * q)
    (gsBFX q (InvRootOfUnityPowers q ω (k' + 1)))
    (gsBFY q (InvRootOfUnityPowers q ω (k' + 1)))
    (WItab q ω (k' + 1)) (k' + 1) hbfX hbfY k' k' F (le_refl k')
    (by omega) (le_of_eq hFlen.symm) hF2q
  simp only [Nat.add_sub_cancel, Nat.sub_self, pow_zero, Nat.zero_add,
    pow_one] at habs
  obtain ⟨iB, iC, iU, iR⟩ := habs
  set P := gsLevels (gsBFX q (InvRootOfUnityPowers q ω (k' + 1)))
    (gsBFY q (InvRootOfUnityPowers q ω (k' + 1))) (2 ^ k') 1 1 F k'
    with hPdef
  rw [iR]
  have hWop : InvRootOfUnityPowers q ω (k' + 1) (2 ^ (k' + 1) - 2 + 1) =
      InverseMod (RootOfUnityPowers q ω (k' + 1) 1) q := by
    have h := invRou_eq q ω (k' + 1) 0 0 (by omega) (by norm_num)
    simpa using h
  rw [hWop]
  -- the fused final level refines the scaled stage-0 level
  have hninv : InverseMod (2 ^ (k' + 1)) q < q := inverseMod_lt _ _ hq0
  have hwinv : MultiplyMod (InverseMod (2 ^ (k' + 1)) q)
      (InverseMod (RootOfUnityPowers q ω (k' + 1) 1) q) q < q := by
    unfold MultiplyMod
    exact Nat.mod_lt _ hq0
  have hPlen : 2 ^ (k' + 1) ≤ P.1.length := by
    rw [hPdef, gsLevels_length, hFlen]
  obtain ⟨jB, jC, jU⟩ := nttLevel_abstraction q (2 * q) (2 * q)
    (invFinalBFX q (InverseMod (2 ^ (k' + 1)) q))
    (invFinalBFY q (MultiplyMod (InverseMod (2 ^ (k' + 1)) q)
      (InverseMod (RootOfUnityPowers q ω (k' + 1) 1) q) q))
    (fun _ X Y => ((InverseMod (2 ^ (k' + 1)) q : ℕ) : ZMod q) * (X + Y))
    (fun _ X Y => ((MultiplyMod (InverseMod (2 ^ (k' + 1)) q)
      (InverseMod (RootOfUnityPowers q ω (k' + 1) 1) q) q : ℕ) : ZMod q) *
      (X - Y))
    0 (2 ^ k') 1 (2 ^ (k' + 1)) (by positivity)
    (by rw [one_mul]; exact pow_succ' 2 k') P.1 hPlen iB
    (fun b X Y _ hX hY =>
      (invFinalBF_facts q _ _ hq0 hq hninv hwinv (0 + b) X Y hX hY).1)
    (fun b X Y _ hX hY =>
      (invFinalBF_facts q _ _ hq0 hq hninv hwinv (0 + b) X Y hX hY).2)
  rw [nttBlocks_one] at jB jC jU
  -- assemble the `ZMod q` content of the final buffer
  have hsplit : ∀ φ : ℕ → ZMod q,
      fwdChainZ (WFtab q ω (k' + 1)) (k' + 1) (k' + 1) 0 φ =
        fwdChainZ (WFtab q ω (k' + 1)) (k' + 1) k' 1
          (levelSpecZ
            (fun b X Y => X + WFtab q ω (k' + 1) (2 ^ 0 + b) * Y)
            (fun b X Y => X - WFtab q ω (k' + 1) (2 ^ 0 + b) * Y)
            (2 ^ k') φ) :=
    fun φ => rfl
  have htel := invChain_fwdChain_collapse (WFtab q ω (k' + 1))
    (WItab q ω (k' + 1)) (k' + 1) (fun j hj1 hj2 => hWinv j) k' 1
    (levelSpecZ (fun b X Y => X + WFtab q ω (k' + 1) (2 ^ 0 + b) * Y)
      (fun b X Y => X - WFtab q ω (k' + 1) (2 ^ 0 + b) * Y)
      (2 ^ k') (stZ q a)) (by omega)
  have hPcast : ∀ i < 2 ^ (k' + 1),
      stZ q P.1 i =
        (2 ^ k' : ZMod q) *
          levelSpecZ (fun b X Y => X + WFtab q ω (k' + 1) (2 ^ 0 + b) * Y)
            (fun b X Y => X - WFtab q ω (k' + 1) (2 ^ 0 + b) * Y)
            (2 ^ k') (stZ q a) i := by
    intro i hi
    rw [iC i hi]
    rw [invChainZ_congr (WItab q ω (k' + 1)) (k' + 1) k' 1 (stZ q F)
      (fwdChainZ (WFtab q ω (k' + 1)) (k' + 1) k' 1
        (levelSpecZ (fun b X Y => X + WFtab q ω (k' + 1) (2 ^ 0 + b) * Y)
          (fun b X Y => X - WFtab q ω (k' + 1) (2 ^ 0 + b) * Y)
          (2 ^ k') (stZ q a)))
      (by omega)
      (fun j hj => (hFcast j hj).trans (congrFun (hsplit (stZ q a)) j)) i hi]
    exact htel i hi
  have hdvd : 2 * 2 ^ k' ∣ 2 ^ (k' + 1) :=
    ⟨1, by rw [mul_one]; exact pow_succ' 2 k'⟩
  have hNW : ((MultiplyMod (InverseMod (2 ^ (k' + 1)) q)
      (InverseMod (RootOfUnityPowers q ω (k' + 1) 1) q) q : ℕ) : ZMod q) *
      WFtab q ω (k' + 1) (2 ^ 0 + 0) =
      ((InverseMod (2 ^ (k' + 1)) q : ℕ) : ZMod q) := by
    unfold MultiplyMod
    rw [ZMod.natCast_mod, Nat.cast_mul]
    show (((InverseMod (2 ^ (k' + 1)) q : ℕ) : ZMod q) *
        WItab q ω (k' + 1) 1) * WFtab q ω (k' + 1) 1 =
      ((InverseMod (2 ^ (k' + 1)) q : ℕ) : ZMod q)
    rw [mul_assoc, hWinv 1, mul_one]
  have hNZ : ((2 : ZMod q)) ^ (k' + 1) *
      ((InverseMod (2 ^ (k' + 1)) q : ℕ) : ZMod q) = 1 := by
    obtain ⟨h1, _⟩ := inverseMod_spec (2 ^ (k' + 1)) q hq1 hcopN
    have hc := congrArg (fun n : ℕ => (n : ZMod q)) h1
    simp only at hc
    rw [ZMod.natCast_mod, Nat.cast_mul, Nat.cast_one] at hc
    have hpow : ((2 ^ (k' + 1) : ℕ) : ZMod q) = (2 : ZMod q) ^ (k' + 1) := by
      push_cast
      ring
    rw [← hpow]
    exact hc
  have hfin : ∀ i < 2 * 2 ^ k',
      levelSpecZ
        (fun _ X Y => ((InverseMod (2 ^ (k' + 1)) q : ℕ) : ZMod q) * (X + Y))
        (fun _ X Y => ((MultiplyMod (InverseMod (2 ^ (k' + 1)) q)
          (InverseMod (RootOfUnityPowers q ω (k' + 1) 1) q) q : ℕ) : ZMod q) *
          (X - Y)) (2 ^ k')
        (levelSpecZ (fun b X Y => X + WFtab q ω (k' + 1) (2 ^ 0 + b) * Y)
          (fun b X Y => X - WFtab q ω (k' + 1) (2 ^ 0 + b) * Y)
          (2 ^ k') (stZ q a)) i =
      2 * ((InverseMod (2 ^ (k' + 1)) q : ℕ) : ZMod q) * stZ q a i :=
    final_level_collapse (fun b => WFtab q ω (k' + 1) (2 ^ 0 + b))
      ((InverseMod (2 ^ (k' + 1)) q : ℕ) : ZMod q)
      ((MultiplyMod (InverseMod (2 ^ (k' + 1)) q)
        (InverseMod (RootOfUnityPowers q ω (k' + 1) 1) q) q : ℕ) : ZMod q)
      (2 ^ k') (by positivity) hNW (stZ q a)
  have hCT : ∀ i < 2 ^ (k' + 1),
      stZ q (ctInner (pairBF (invFinalBFX q (InverseMod (2 ^ (k' + 1)) q))
        (invFinalBFY q (MultiplyMod (InverseMod (2 ^ (k' + 1)) q)
          (InverseMod (RootOfUnityPowers q ω (k' + 1) 1) q) q))
        0 (2 ^ k')) 0 P.1 (2 ^ k')) i = stZ q a i := by
    intro i hi
    have hi2 : i < 2 * 2 ^ k' := by rw [← pow_succ']; exact hi
    rw [jC i hi]
    rw [levelSpecZ_congr
      (fun _ X Y => ((InverseMod (2 ^ (k' + 1)) q : ℕ) : ZMod q) * (X + Y))
      (fun _ X Y => ((MultiplyMod (InverseMod (2 ^ (k' + 1)) q)
        (InverseMod (RootOfUnityPowers q ω (k' + 1) 1) q) q : ℕ) : ZMod q) *
        (X - Y))
      (2 ^ k') (2 ^ (k' + 1)) (by positivity) hdvd (stZ q P.1)
      (fun i => (2 ^ k' : ZMod q) *
        levelSpecZ (fun b X Y => X + WFtab q ω (k' + 1) (2 ^ 0 + b) * Y)
          (fun b X Y => X - WFtab q ω (k' + 1) (2 ^ 0 + b) * Y)
          (2 ^ k') (stZ q a) i)
      hPcast i hi]
    rw [levelSpecZ_scale
      ((InverseMod (2 ^ (k' + 1)) q : ℕ) : ZMod q)
      ((MultiplyMod (InverseMod (2 ^ (k' + 1)) q)
        (InverseMod (RootOfUnityPowers q ω (k' + 1) 1) q) q : ℕ) : ZMod q)
      ((2 : ZMod q) ^ k') (2 ^ k')
      (levelSpecZ (fun b X Y => X + WFtab q ω (k' + 1) (2 ^ 0 + b) * Y)
        (fun b X Y => X - WFtab q ω (k' + 1) (2 ^ 0 + b) * Y)
        (2 ^ k') (stZ q a)) i]
    rw [hfin i hi2]
    linear_combination (stZ q a i) * hNZ
  -- final normalization pass and extensionality
  have hCTlen : (ctInner (pairBF (invFinalBFX q (InverseMod (2 ^ (k' + 1)) q))
      (invFinalBFY q (MultiplyMod (InverseMod (2 ^ (k' + 1)) q)
        (InverseMod (RootOfUnityPowers q ω (k' + 1) 1) q) q))
      0 (2 ^ k')) 0 P.1 (2 ^ k')).length = 2 ^ (k' + 1) := by
    rw [ctInner_pairBF_length, hPdef, gsLevels_length, hFlen]
  have hnl2 := normLoop_getD q (2 ^ (k' + 1)) 0 _ (by rw [hCTlen]; omega)
  apply List.ext_getElem (by rw [normLoop_length, hCTlen, hlen])
  intro i hi1 hi2
  have hik : i < 2 ^ (k' + 1) := by
    rw [normLoop_length, hCTlen] at hi1; exact hi1
  rw [← List.getD_eq_getElem _ 0 hi1, ← List.getD_eq_getElem _ 0 hi2]
  rw [hnl2 i, if_pos ⟨by omega, by omega⟩]
  have hB4 : (ctInner (pairBF (invFinalBFX q (InverseMod (2 ^ (k' + 1)) q))
      (invFinalBFY q (MultiplyMod (InverseMod (2 ^ (k' + 1)) q)
        (InverseMod (RootOfUnityPowers q ω (k' + 1) 1) q) q))
      0 (2 ^ k')) 0 P.1 (2 ^ k')).getD i 0 < 4 * q := by
    have := jB i hik; omega
  rw [normalizeElt_eq_mod q _ hB4]
  apply nat_eq_of_cast_eq q _ _ hq0 (Nat.mod_lt _ hq0) (hin i hik)
  rw [ZMod.natCast_mod]
  have hc := hCT i hik
  simp only [stZ] at hc
  exact hc

/-- Witness for `ntt_C1_roundtrip` at `N = 8`, `q = 17`, `ω = 3` (a
primitive 16th root of unity mod 17), `a = [1,…,8]`. -/
theorem ntt_C1_roundtrip_witness :
    (1 ≤ 3 ∧ 1 < 17 ∧ 17 < 2 ^ 62 ∧ 17 % (2 * 2 ^ 3) = 1 ∧
      Nat.Coprime 3 17 ∧
      ([1, 2, 3, 4, 5, 6, 7, 8] : List ℕ).length = 2 ^ 3 ∧
      (∀ i < 2 ^ 3, ([1, 2, 3, 4, 5, 6, 7, 8] : List ℕ).getD i 0 < 17)) ∧
    InverseTransformToBitReverse64 (2 ^ 3) 17 (InvRootOfUnityPowers 17 3 3)
      (ForwardTransformToBitReverse64 (2 ^ 3) 17 (RootOfUnityPowers 17 3 3)
        (PreconRootOfUnityPowers 17 3 3) [1, 2, 3, 4, 5, 6, 7, 8]) =
      [1, 2, 3, 4, 5, 6, 7, 8] :=
  ⟨⟨by decide, by decide, by decide, by decide, by decide, by decide,
      by decide⟩,
    ntt_C1_roundtrip 3 17 3 [1, 2, 3, 4, 5, 6, 7, 8] (by decide) (by decide)
      (by decide) (by decide) (by decide) (by decide) (by decide)⟩

end ClaimC1

end Hexl
